import Mathlib

/-!
Verification development for the educational-process-mining repository.

The repository's own code (src/main.py, src/generate_big_dataset.py) is thin
glue around a process-mining library: `load_event_log`, `discover_petri_net`,
`conformance_check`, `generate_suggestions`, `generate_synthetic_log`.
The mining engine itself (inductive miner, process-tree-to-Petri-net
translation, alignment search) is delegated to that library and is not part
of src/; those parts are modelled here from the specification (spec.md,
sections 4.1 to 4.4), as marked in the doc comments below.

Traces are lists of activity names (strings); an event log is a list of
traces.  Machine arithmetic does not occur; costs are natural numbers and
fitness values are rationals.
-/

namespace EPM

/-- A trace is the ordered list of activity names of one case. -/
abbrev Trace := List String

/-- An event log is an ordered list of traces. -/
abbrev Log := List Trace

/-- Alphabet of a log: every activity occurring in some trace (deduplicated). -/
def acts (log : Log) : List String := log.flatten.dedup

/-- Consecutive pairs of one trace (the directly-follows pairs it contributes). -/
def tracePairs (t : Trace) : List (String × String) := t.zip t.tail

/-- Modelled from the spec (section 4.1): the directly-follows edges of a log,
one entry per occurrence of a directly-follows pair. -/
def dfEdges (log : Log) : List (String × String) := log.flatMap tracePairs

/-- Modelled from the spec (section 4.1): start activities, the first activity
of each non-empty trace (a multiset, kept as a list). -/
def startActs (log : Log) : List String := log.filterMap List.head?

/-- Modelled from the spec (section 4.1): end activities, the last activity of
each non-empty trace (a multiset, kept as a list). -/
def endActs (log : Log) : List String := log.filterMap List.getLast?

/-! ## Petri nets

Modelled from the spec (section 3): a labeled Petri net is given by its
transitions; each transition carries an optional label (`none` is a silent
transition) and its input and output places.  Places are natural numbers
(an arena of stable integer indices, as the spec's design notes suggest);
the arcs are exactly the `pre`/`post` entries.  Markings are multisets of
places, kept as sorted lists. -/

/-- A Petri-net transition: optional visible label, input places, output places. -/
structure PNTrans where
  label : Option String
  pre : List Nat
  post : List Nat
deriving DecidableEq, Repr

/-- A marking: multiset of marked places, as a list of place indices. -/
abbrev Marking := List Nat

/-- Canonical (sorted) form of a marking, so equal multisets compare equal. -/
def sortMk (m : Marking) : Marking := m.foldr (List.orderedInsert (· ≤ ·)) []

/-- A transition is enabled when its input places are contained, with
multiplicity, in the marking. -/
def enabledIn (m : Marking) : List Nat → Bool
  | [] => true
  | p :: ps => p ∈ m && enabledIn (m.erase p) ps

/-- Firing a transition: consume the input tokens, produce the output tokens. -/
def fireTrans (m : Marking) (tr : PNTrans) : Marking :=
  (tr.post).foldl (fun acc p => List.orderedInsert (· ≤ ·) p acc) (m.diff tr.pre)

/-! ## Alignment engine

Modelled from the spec (section 4.4): a synchronous-product state is a pair
of a log position and a marking; moves are synchronous (cost 0), log-only
(cost 1), model-only visible (cost 1) and model-only silent (cost 0).  The
search keeps a visited table of best known costs and relaxes it until it is
stable (a fixed point); a fuel bound defensively cuts off nets whose state
space cannot be exhausted, which is reported as the per-trace
ModelUnreachable failure of section 7. -/

/-- A synchronous-product state: position in the trace and current marking. -/
abbrev SPState := Nat × Marking

/-- All moves out of a synchronous-product state, with their costs:
synchronous moves, then the log-only move, then model-only moves. -/
def spMoves (t : Trace) (T : List PNTrans) (s : SPState) : List (SPState × Nat) :=
  (match t.get? s.1 with
    | none => []
    | some a =>
      T.filterMap fun tr =>
        if tr.label = some a && enabledIn s.2 tr.pre then
          some ((s.1 + 1, fireTrans s.2 tr), 0)
        else none) ++
  (if s.1 < t.length then [((s.1 + 1, s.2), 1)] else []) ++
  (T.filterMap fun tr =>
    if enabledIn s.2 tr.pre then
      some ((s.1, fireTrans s.2 tr), if tr.label.isSome then 1 else 0)
    else none)

/-- Visited table of the search: states with their best known cost. -/
abbrev SPTable := List (SPState × Nat)

/-- Look up the recorded cost of a state. -/
def lookupT : SPTable → SPState → Option Nat
  | [], _ => none
  | (s, c) :: rest, k => if s = k then some c else lookupT rest k

/-- Record a candidate cost for a state, keeping the minimum. -/
def updateT : SPTable → SPState × Nat → SPTable
  | [], e => [e]
  | (s, c) :: rest, e => if s = e.1 then (s, min c e.2) :: rest else (s, c) :: updateT rest e

/-- All candidate costs produced by relaxing every recorded state once. -/
def candidatesT (t : Trace) (T : List PNTrans) (tbl : SPTable) : List (SPState × Nat) :=
  tbl.flatMap fun e => (spMoves t T e.1).map fun m => (m.1, e.2 + m.2)

/-- One relaxation round of the visited table. -/
def stepT (t : Trace) (T : List PNTrans) (tbl : SPTable) : SPTable :=
  (candidatesT t T tbl).foldl updateT tbl

/-- Iterate relaxation until the table is stable or the fuel runs out; the
boolean reports whether a fixed point was reached. -/
def saturate (t : Trace) (T : List PNTrans) : Nat → SPTable → SPTable × Bool
  | 0, tbl => (tbl, false)
  | n + 1, tbl =>
    let tbl' := stepT t T tbl
    if tbl' = tbl then (tbl, true) else saturate t T n tbl'

/-- Places mentioned by a net, together with the reserved source and sink. -/
def placesOf (T : List PNTrans) : List Nat :=
  (0 :: 1 :: T.flatMap fun tr => tr.pre ++ tr.post).dedup

/-- Defensive fuel bound for the search (section 7: the search must be cut
off rather than hang on a net whose final marking is unreachable). -/
def searchFuel (t : Trace) (T : List PNTrans) : Nat :=
  (t.length + 1) * 2 ^ (placesOf T).length + 1

/-- Modelled from the spec (section 4.4): cost of a cost-minimal alignment of
the trace against the net, found by saturating the synchronous-product
search; `none` is the ModelUnreachable failure for this trace. -/
def searchCost (t : Trace) (T : List PNTrans) (im fm : Marking) : Option Nat :=
  let r := saturate t T (searchFuel t T) [((0, sortMk im), 0)]
  if r.2 then lookupT r.1 (t.length, sortMk fm) else none

/-- Modelled from the spec (section 4.4): fitness of one trace,
`1 - cost / (|trace| + cost_of_replaying_empty_trace_on_model)`;
`none` when the alignment of this trace fails. -/
def alignTrace (t : Trace) (T : List PNTrans) (im fm : Marking) : Option ℚ :=
  match searchCost [] T im fm, searchCost t T im fm with
  | some w, some c => some (1 - (c : ℚ) / ((t.length : ℚ) + (w : ℚ)))
  | _, _ => none

/-- Modelled from the spec (sections 4.4 and 7): align every trace of the log
against the net; failures are isolated per trace and collected alongside
successes, in input order. -/
def apply_log (log : Log) (T : List PNTrans) (im fm : Marking) : List (Option ℚ) :=
  log.map fun t => alignTrace t T im fm

/-! ## Process trees and the inductive miner

Modelled from the spec (sections 3 and 4.2): a process tree with SEQUENCE,
XOR, PARALLEL and LOOP operators over activity and silent leaves, discovered
by cut detection over the directly-follows graph.  Each candidate cut is
validated against the spec's cut conditions before it is used; when no cut
validates, discovery degrades to the flower model. -/

/-- A process tree: operators over activity leaves and the silent leaf. -/
inductive PTree where
  | tau : PTree
  | act : String → PTree
  | seq : List PTree → PTree
  | xor : List PTree → PTree
  | par : List PTree → PTree
  | loop : PTree → PTree → PTree

/-- One expansion round of a closure computation over the finite universe. -/
def closureStep (adj : String → String → Bool) (xs s : List String) : List String :=
  s ++ xs.filter (fun b => !s.contains b && s.any (fun a => adj a b))

/-- Iterated closure with fuel. -/
def closureN (adj : String → String → Bool) (xs : List String) :
    Nat → List String → List String
  | 0, s => s
  | n + 1, s => closureN adj xs n (closureStep adj xs s)

/-- Component of one element under an adjacency, in the order of the universe. -/
def compOf (adj : String → String → Bool) (xs : List String) (x : String) : List String :=
  xs.filter (fun y => (closureN adj xs xs.length [x]).contains y)

/-- Candidate components of the universe under an adjacency. -/
def componentsOf (adj : String → String → Bool) (xs : List String) : List (List String) :=
  (xs.map (compOf adj xs)).dedup

/-- Directed reachability (reflexive-transitive) through the edge list. -/
def dreach (E : List (String × String)) (xs : List String) (a b : String) : Bool :=
  (closureN (fun u v => E.contains (u, v)) xs xs.length [a]).contains b

/-- Insertion by a boolean relation. -/
def insertBy (le : α → α → Bool) (a : α) : List α → List α
  | [] => [a]
  | b :: bs => if le a b then a :: b :: bs else b :: insertBy le a bs

/-- Insertion sort by a boolean relation. -/
def sortBy (le : α → α → Bool) (l : List α) : List α := l.foldr (insertBy le) []

/-- The groups validated by every cut form a partition of the alphabet into
at least two non-empty groups. -/
def isPartitionOf (groups : List (List String)) (as : List String) : Prop :=
  2 ≤ groups.length ∧ (∀ g ∈ groups, g ≠ []) ∧ groups.flatten.Nodup ∧
    (∀ a ∈ groups.flatten, a ∈ as) ∧ (∀ a ∈ as, a ∈ groups.flatten)

instance (groups : List (List String)) (as : List String) :
    Decidable (isPartitionOf groups as) := by
  unfold isPartitionOf; infer_instance

/-- Spec condition for a sequence cut over ordered groups: no directly-follows
edge from a later group to an earlier one, and groups are totally ordered by
reachability. -/
def seqValid (E : List (String × String)) (xs : List String)
    (gs : List (List String)) : Prop :=
  gs.Pairwise (fun g h =>
    (∀ a ∈ h, ∀ b ∈ g, (a, b) ∉ E) ∧
    (∀ a ∈ g, ∃ b ∈ h, dreach E xs a b ∨ dreach E xs b a) ∧
    (∀ a ∈ h, ∃ b ∈ g, dreach E xs a b ∨ dreach E xs b a))

instance (E : List (String × String)) (xs : List String) (gs : List (List String)) :
    Decidable (seqValid E xs gs) := by
  unfold seqValid; infer_instance

/-- Spec condition for an exclusive-choice cut: no directly-follows edges
between distinct groups in either direction. -/
def xorValid (E : List (String × String)) (gs : List (List String)) : Prop :=
  gs.Pairwise (fun g h => ∀ a ∈ g, ∀ b ∈ h, (a, b) ∉ E ∧ (b, a) ∉ E)

instance (E : List (String × String)) (gs : List (List String)) :
    Decidable (xorValid E gs) := by
  unfold xorValid; infer_instance

/-- Spec condition for a parallel cut: activities of distinct groups are
bidirectionally connected, and every group contains one of the log's start
and end activities, or all groups appear in every trace. -/
def parValid (E : List (String × String)) (starts ends : List String)
    (log : Log) (gs : List (List String)) : Prop :=
  gs.Pairwise (fun g h => ∀ a ∈ g, ∀ b ∈ h, (a, b) ∈ E ∧ (b, a) ∈ E) ∧
    ((∀ g ∈ gs, ∃ a ∈ g, a ∈ starts ∨ a ∈ ends) ∨
      (∀ g ∈ gs, ∀ t ∈ log, ∃ a ∈ g, a ∈ t))

instance (E : List (String × String)) (starts ends : List String) (log : Log)
    (gs : List (List String)) : Decidable (parValid E starts ends log gs) := by
  unfold parValid
  infer_instance

/-- Spec condition for a loop cut: the body contains all start and end
activities; every edge leaving a redo group enters the body's start
activities, and every edge entering a redo group leaves the body's end
activities. -/
def loopValid (E : List (String × String)) (starts ends : List String)
    (body : List String) (redos : List (List String)) : Prop :=
  (∀ a ∈ starts, a ∈ body) ∧ (∀ a ∈ ends, a ∈ body) ∧
    ∀ r ∈ redos,
      (∀ e ∈ E, e.1 ∈ r → e.2 ∉ r → e.2 ∈ starts) ∧
      (∀ e ∈ E, e.2 ∈ r → e.1 ∉ r → e.1 ∈ ends)

instance (E : List (String × String)) (starts ends : List String)
    (body : List String) (redos : List (List String)) :
    Decidable (loopValid E starts ends body redos) := by
  unfold loopValid; infer_instance

/-- Strongly-connected classes of the directly-follows graph. -/
def sccGroups (E : List (String × String)) (xs : List String) : List (List String) :=
  (xs.map fun a => xs.filter fun b => dreach E xs a b && dreach E xs b a).dedup

/-- Whether some activity of the first group reaches some activity of the second. -/
def groupReach (E : List (String × String)) (xs : List String)
    (g h : List String) : Bool :=
  g.any fun a => h.any fun b => dreach E xs a b

/-- First pair of groups with no reachability in either direction. -/
def findIncPair (E : List (String × String)) (xs : List String) :
    List (List String) → Option (List String × List String)
  | [] => none
  | g :: rest =>
    match rest.find? (fun h => !groupReach E xs g h && !groupReach E xs h g) with
    | some h => some (g, h)
    | none => findIncPair E xs rest

/-- Merge mutually unreachable groups, with fuel. -/
def mergeIncN (E : List (String × String)) (xs : List String) :
    Nat → List (List String) → List (List String)
  | 0, gs => gs
  | n + 1, gs =>
    match findIncPair E xs gs with
    | none => gs
    | some (g, h) =>
      mergeIncN E xs n
        ((xs.filter fun a => g.contains a || h.contains a) ::
          gs.filter (fun k => k ≠ g ∧ k ≠ h))

/-- Candidate ordered groups for the sequence cut: strongly-connected classes,
mutually unreachable classes merged, sorted by reachability. -/
def seqCandidate (E : List (String × String)) (xs : List String) : List (List String) :=
  sortBy (groupReach E xs) (mergeIncN E xs xs.length (sccGroups E xs))

/-- Sequence cut detection (candidate plus validation against the spec). -/
def seqCut (E : List (String × String)) (as : List String) :
    Option (List (List String)) :=
  let gs := seqCandidate E as
  if isPartitionOf gs as ∧ seqValid E as gs then some gs else none

/-- Exclusive-choice cut detection: components of the undirected
directly-follows graph, validated against the spec. -/
def xorCut (E : List (String × String)) (as : List String) :
    Option (List (List String)) :=
  let gs := componentsOf (fun a b => E.contains (a, b) || E.contains (b, a)) as
  if isPartitionOf gs as ∧ xorValid E gs then some gs else none

/-- Parallel cut detection: components of the complement of the bidirectional
relation, validated against the spec. -/
def parCut (E : List (String × String)) (starts ends : List String) (log : Log)
    (as : List String) : Option (List (List String)) :=
  let gs := componentsOf (fun a b => !(E.contains (a, b) && E.contains (b, a))) as
  if isPartitionOf gs as ∧ parValid E starts ends log gs then some gs else none

/-- Loop cut detection: the body is the set of start and end activities, the
redo groups are the components of the rest, validated against the spec. -/
def loopCut (E : List (String × String)) (starts ends : List String)
    (as : List String) : Option (List String × List (List String)) :=
  let body := as.filter fun a => starts.contains a || ends.contains a
  let rest := as.filter fun a => !(starts.contains a || ends.contains a)
  let redos := componentsOf (fun a b => E.contains (a, b) || E.contains (b, a)) rest
  if isPartitionOf (body :: redos) as ∧ loopValid E starts ends body redos
  then some (body, redos) else none

/-- Projection of a trace onto a group of activities. -/
def projTrace (g : List String) (t : Trace) : Trace := t.filter fun a => g.contains a

/-- Sequence/parallel log split: project every trace onto the group. -/
def projLog (g : List String) (log : Log) : Log := log.map (projTrace g)

/-- Exclusive-choice log split: the traces lying entirely inside the group,
projected onto it. -/
def xorSplit (g : List String) (log : Log) : Log :=
  (log.filter fun t => !t.isEmpty && t.all fun a => g.contains a).map (projTrace g)

/-- Maximal runs of a trace, each tagged with whether its activities satisfy
the predicate. -/
def runsBy (p : String → Bool) : Trace → List (Bool × Trace)
  | [] => []
  | a :: rest =>
    match runsBy p rest with
    | [] => [(p a, [a])]
    | (b, seg) :: more =>
      if p a = b then (b, a :: seg) :: more else (p a, [a]) :: (b, seg) :: more

/-- Body segments of a trace under a loop cut. -/
def bodySegs (p : String → Bool) (t : Trace) : List Trace :=
  (runsBy p t).filterMap fun e => if e.1 then some e.2 else none

/-- Non-body segments of a trace under a loop cut. -/
def nonBodySegs (p : String → Bool) (t : Trace) : List Trace :=
  (runsBy p t).filterMap fun e => if e.1 then none else some e.2

/-- Loop log split, body side: all body segments, in trace order. -/
def bodyLog (body : List String) (log : Log) : Log :=
  log.flatMap (bodySegs fun a => body.contains a)

/-- Loop log split, redo side: concatenation of the redo-group logs. -/
def redoLog (redos : List (List String)) (body : List String) (log : Log) : Log :=
  redos.flatMap fun r =>
    log.flatMap fun t =>
      (nonBodySegs (fun a => body.contains a) t).filter fun seg =>
        seg.all fun a => r.contains a

/-- Exclusive choice over activity leaves, collapsing a single alternative. -/
def xorOfActs : List String → PTree
  | [a] => .act a
  | l => .xor (l.map .act)

/-- Modelled from the spec (section 4.2): the flower model over an alphabet,
a loop of a silent body with the choice of all activities as redo. -/
def flower (as : List String) : PTree := .loop .tau (xorOfActs as)

/-- Base case 2 of the discoverer: a single-activity alphabet where every
trace is exactly that one activity once. -/
def baseSingle : List String → Log → Option String
  | [a], log => if log.all (fun t => t == [a]) then some a else none
  | _, _ => none

/-- Modelled from the spec (section 4.2): the recursive process-tree
discoverer.  Base cases: empty alphabet gives the silent leaf; a
single-activity log of that activity gives an activity leaf.  Otherwise the
cuts are attempted in the fixed priority order sequence, exclusive choice,
parallel, loop, recursing on the corresponding log split; if no cut
validates (or the fuel, which discovery's shrinking-alphabet invariant makes
sufficient, runs out) the flower model over the current alphabet is
produced. -/
def mineTree : Nat → Log → PTree
  | fuel, log =>
    let as := acts log
    if as = [] then .tau
    else
      match baseSingle as log with
      | some a => .act a
      | none =>
        match fuel with
        | 0 => flower as
        | n + 1 =>
          let E := dfEdges log
          let starts := startActs log
          let ends := endActs log
          match seqCut E as with
          | some gs => .seq (gs.map fun g => mineTree n (projLog g log))
          | none =>
            match xorCut E as with
            | some gs =>
              .xor ((gs.map fun g => mineTree n (xorSplit g log)) ++
                (if log.any List.isEmpty then [.tau] else []))
            | none =>
              match parCut E starts ends log as with
              | some gs => .par (gs.map fun g => mineTree n (projLog g log))
              | none =>
                match loopCut E starts ends as with
                | some (body, redos) =>
                  .loop (mineTree n (bodyLog body log))
                    (mineTree n (redoLog redos body log))
                | none => flower as

/-! ## Process tree to Petri net

Modelled from the spec (section 4.3): a pure structural translation threading
an entry place and an exit place through the tree, allocating fresh places
from a counter.  The loop rule follows the spec's words: the body runs from
the entry place to an intermediate place; from the intermediate place a
silent transition exits, and the redo part runs from the intermediate place
back to the intermediate place, repeatable unboundedly. -/

mutual

/-- Compile a tree between an entry and an exit place; returns the generated
transitions and the next fresh place. -/
def compileAux : PTree → Nat → Nat → Nat → List PNTrans × Nat
  | .tau, e, x, f => ([⟨none, [e], [x]⟩], f)
  | .act a, e, x, f => ([⟨some a, [e], [x]⟩], f)
  | .seq cs, e, x, f => compileSeqList cs e x f
  | .xor cs, e, x, f => compileXorList cs e x f
  | .par cs, e, x, f =>
    match cs with
    | [] => ([⟨none, [e], [x]⟩], f)
    | c :: cs' =>
      let r := compileParList (c :: cs') f
      (⟨none, [e], r.2.1.map Prod.fst⟩ :: ⟨none, r.2.1.map Prod.snd, [x]⟩ :: r.1, r.2.2)
  | .loop b rd, e, x, f =>
    let mid := f
    let r1 := compileAux b e mid (f + 1)
    let r2 := compileAux rd mid mid r1.2
    (⟨none, [mid], [x]⟩ :: r1.1 ++ r2.1, r2.2)

/-- Compile the children of a SEQUENCE, chaining them through fresh places. -/
def compileSeqList : List PTree → Nat → Nat → Nat → List PNTrans × Nat
  | [], e, x, f => ([⟨none, [e], [x]⟩], f)
  | [c], e, x, f => compileAux c e x f
  | c :: cs, e, x, f =>
    let p := f
    let r1 := compileAux c e p (f + 1)
    let r2 := compileSeqList cs p x r1.2
    (r1.1 ++ r2.1, r2.2)

/-- Compile the children of an XOR, all between the shared entry and exit. -/
def compileXorList : List PTree → Nat → Nat → Nat → List PNTrans × Nat
  | [], e, x, f => ([⟨none, [e], [x]⟩], f)
  | [c], e, x, f => compileAux c e x f
  | c :: cs, e, x, f =>
    let r1 := compileAux c e x f
    let r2 := compileXorList cs e x r1.2
    (r1.1 ++ r2.1, r2.2)

/-- Compile the children of a PARALLEL, each on its own fresh branch place
pair; returns the transitions, the branch place pairs, and the next fresh
place. -/
def compileParList : List PTree → Nat → List PNTrans × List (Nat × Nat) × Nat
  | [], f => ([], [], f)
  | c :: cs, f =>
    let ei := f
    let xi := f + 1
    let r1 := compileAux c ei xi (f + 2)
    let r2 := compileParList cs r1.2
    (r1.1 ++ r2.1, (ei, xi) :: r2.2.1, r2.2.2)

end

/-- Modelled from the spec (sections 4.2 and 4.3), embedding
`discover_petri_net` of src/main.py: discover a process tree with the
inductive miner and translate it to a Petri net; returns the net's
transitions with the initial marking (one token on the entry place `0`) and
the final marking (one token on the exit place `1`). -/
def discover_petri_net (log : Log) : List PNTrans × Marking × Marking :=
  ((compileAux (mineTree (acts log).length log) 0 1 2).1, [0], [1])

/-- The visible (non-silent) transition labels of a net. -/
def netVisibleLabels (T : List PNTrans) : List String := T.filterMap PNTrans.label

/-- Embedded from src/main.py, `conformance_check`: run alignment-based
conformance checking and return the per-trace results plus the average
fitness, which is `0` when there are no fitness values. -/
def conformance_check (log : Log) (T : List PNTrans) (im fm : Marking) :
    List (Option ℚ) × ℚ :=
  let alignments := apply_log log T im fm
  let fitness_values := alignments.filterMap id
  let avg_fitness : ℚ :=
    if fitness_values.isEmpty then 0 else fitness_values.sum / (fitness_values.length : ℚ)
  (alignments, avg_fitness)

/-! ## Labels of trees and nets -/

mutual

/-- The activity labels of the leaves of a process tree, in tree order. -/
def treeLabels : PTree → List String
  | .tau => []
  | .act a => [a]
  | .seq cs => treeLabelsList cs
  | .xor cs => treeLabelsList cs
  | .par cs => treeLabelsList cs
  | .loop b r => treeLabels b ++ treeLabels r

/-- Labels of a list of process trees, concatenated. -/
def treeLabelsList : List PTree → List String
  | [] => []
  | c :: cs => treeLabels c ++ treeLabelsList cs

end

/-- The compiled net's visible labels are exactly the tree's leaf labels. -/
theorem compile_labels_master : ∀ n : Nat,
    (∀ t : PTree, sizeOf t ≤ n → ∀ e x f,
      netVisibleLabels (compileAux t e x f).1 = treeLabels t) ∧
    (∀ cs : List PTree, sizeOf cs ≤ n → ∀ e x f,
      netVisibleLabels (compileSeqList cs e x f).1 = treeLabelsList cs ∧
      netVisibleLabels (compileXorList cs e x f).1 = treeLabelsList cs) ∧
    (∀ cs : List PTree, sizeOf cs ≤ n → ∀ f,
      netVisibleLabels (compileParList cs f).1 = treeLabelsList cs) := by
  intro n
  induction n using Nat.strong_induction_on with
  | _ n ih =>
    refine ⟨?_, ?_, ?_⟩
    · intro t ht e x f
      match t with
      | .tau => simp [compileAux, netVisibleLabels, treeLabels]
      | .act a => simp [compileAux, netVisibleLabels, treeLabels]
      | .seq cs =>
        have hlt : sizeOf cs < n := by
          have := ht; simp at this; omega
        rw [show compileAux (.seq cs) e x f = compileSeqList cs e x f from rfl]
        exact ((ih (sizeOf cs) hlt).2.1 cs (le_refl _) e x f).1.trans rfl
      | .xor cs =>
        have hlt : sizeOf cs < n := by
          have := ht; simp at this; omega
        rw [show compileAux (.xor cs) e x f = compileXorList cs e x f from rfl]
        exact ((ih (sizeOf cs) hlt).2.1 cs (le_refl _) e x f).2.trans rfl
      | .par cs =>
        have hlt : sizeOf cs < n := by
          have := ht; simp at this; omega
        match cs with
        | [] => simp [compileAux, netVisibleLabels, treeLabels, treeLabelsList]
        | c :: cs' =>
          have h3 := (ih (sizeOf (c :: cs')) hlt).2.2 (c :: cs') (le_refl _) f
          simp only [compileAux, netVisibleLabels, List.filterMap_cons] at h3 ⊢
          simpa [treeLabels] using h3
      | .loop b r =>
        have hb : sizeOf b < n := by
          have := ht; simp at this; omega
        have hr : sizeOf r < n := by
          have := ht; simp at this; omega
        have h1 := (ih (sizeOf b) hb).1 b (le_refl _) e f (f + 1)
        have h2 := (ih (sizeOf r) hr).1 r (le_refl _) f f
          (compileAux b e f (f + 1)).2
        simp only [compileAux, netVisibleLabels, List.filterMap_cons,
          List.filterMap_append] at h1 h2 ⊢
        simp [treeLabels, treeLabelsList, h1, h2]
    · intro cs hcs e x f
      match cs with
      | [] => simp [compileSeqList, compileXorList, netVisibleLabels, treeLabelsList]
      | [c] =>
        have hc : sizeOf c < n := by
          have := hcs; simp at this; omega
        have h1 := (ih (sizeOf c) hc).1 c (le_refl _)
        constructor
        · rw [show compileSeqList [c] e x f = compileAux c e x f from rfl]
          simp [h1, treeLabelsList]
        · rw [show compileXorList [c] e x f = compileAux c e x f from rfl]
          simp [h1, treeLabelsList]
      | c :: c2 :: cs' =>
        have hc : sizeOf c < n := by
          have := hcs; simp at this; omega
        have hrest : sizeOf (c2 :: cs') < n := by
          have := hcs; simp at this; simp; omega
        have h1 := (ih (sizeOf c) hc).1 c (le_refl _)
        have h2 := (ih (sizeOf (c2 :: cs')) hrest).2.1 (c2 :: cs') (le_refl _)
        constructor
        · rw [show compileSeqList (c :: c2 :: cs') e x f =
            ((compileAux c e f (f + 1)).1 ++
              (compileSeqList (c2 :: cs') f x (compileAux c e f (f + 1)).2).1,
              (compileSeqList (c2 :: cs') f x (compileAux c e f (f + 1)).2).2) from rfl]
          simp only [netVisibleLabels, List.filterMap_append] at h1 h2 ⊢
          simp [treeLabelsList, h1, (h2 _ _ _).1]
        · rw [show compileXorList (c :: c2 :: cs') e x f =
            ((compileAux c e x f).1 ++
              (compileXorList (c2 :: cs') e x (compileAux c e x f).2).1,
              (compileXorList (c2 :: cs') e x (compileAux c e x f).2).2) from rfl]
          simp only [netVisibleLabels, List.filterMap_append] at h1 h2 ⊢
          simp [treeLabelsList, h1, (h2 _ _ _).2]
    · intro cs hcs f
      match cs with
      | [] => simp [compileParList, netVisibleLabels, treeLabelsList]
      | c :: cs' =>
        have hc : sizeOf c < n := by
          have := hcs; simp at this; omega
        have hrest : sizeOf cs' < n := by
          have := hcs; simp at this; omega
        have h1 := (ih (sizeOf c) hc).1 c (le_refl _) f (f + 1) (f + 2)
        have h2 := (ih (sizeOf cs') hrest).2.2 cs' (le_refl _)
          (compileAux c f (f + 1) (f + 2)).2
        rw [show compileParList (c :: cs') f =
          ((compileAux c f (f + 1) (f + 2)).1 ++
            (compileParList cs' (compileAux c f (f + 1) (f + 2)).2).1,
            (f, f + 1) :: (compileParList cs' (compileAux c f (f + 1) (f + 2)).2).2.1,
            (compileParList cs' (compileAux c f (f + 1) (f + 2)).2).2.2) from rfl]
        simp only [netVisibleLabels, List.filterMap_append] at h1 h2 ⊢
        simp [treeLabelsList, h1, h2]

/-! ## Alphabet lemmas for the miner -/

/-- Membership in the alphabet of a log. -/
theorem mem_acts {log : Log} {a : String} : a ∈ acts log ↔ ∃ t ∈ log, a ∈ t := by
  simp [acts, List.mem_dedup, List.mem_flatten]

/-- Membership in a trace projection. -/
theorem mem_projTrace {g : List String} {t : Trace} {a : String} :
    a ∈ projTrace g t ↔ a ∈ t ∧ a ∈ g := by
  simp [projTrace, List.mem_filter]

/-- Alphabet of a projected log. -/
theorem mem_acts_projLog {g : List String} {log : Log} {a : String} :
    a ∈ acts (projLog g log) ↔ a ∈ g ∧ a ∈ acts log := by
  simp only [mem_acts, projLog, List.mem_map]
  constructor
  · rintro ⟨t', ⟨t, ht, rfl⟩, ha⟩
    obtain ⟨hat, hag⟩ := mem_projTrace.1 ha
    exact ⟨hag, t, ht, hat⟩
  · rintro ⟨hag, t, ht, hat⟩
    exact ⟨projTrace g t, ⟨t, ht, rfl⟩, mem_projTrace.2 ⟨hat, hag⟩⟩

/-- A validated partition covers exactly the alphabet. -/
theorem partition_mem {gs : List (List String)} {as : List String}
    (hp : isPartitionOf gs as) (a : String) : (∃ g ∈ gs, a ∈ g) ↔ a ∈ as := by
  obtain ⟨-, -, -, h1, h2⟩ := hp
  constructor
  · rintro ⟨g, hg, ha⟩
    exact h1 a (List.mem_flatten.2 ⟨g, hg, ha⟩)
  · intro ha
    exact List.mem_flatten.1 (h2 a ha)

/-- Two groups of a validated partition sharing an element are equal. -/
theorem partition_share_eq {gs : List (List String)} {as : List String}
    (hp : isPartitionOf gs as) {g h : List String} (hg : g ∈ gs) (hh : h ∈ gs)
    {a : String} (hag : a ∈ g) (hah : a ∈ h) : g = h := by
  by_contra hne
  obtain ⟨-, -, hnd, -, -⟩ := hp
  have hdisj := (List.nodup_flatten.1 hnd).2
  have := (hdisj.forall (fun x y hxy => hxy.symm)) hg hh hne
  exact this hag hah

/-- Consecutive pairs of a trace of the log are directly-follows edges. -/
theorem pair_mem_dfEdges {log : Log} {t : Trace} {x y : String} (ht : t ∈ log)
    (hxy : (x, y) ∈ tracePairs t) : (x, y) ∈ dfEdges log := by
  simp only [dfEdges, List.mem_flatMap]
  exact ⟨t, ht, hxy⟩

/-- Consecutive pairs unfold along the trace. -/
theorem tracePairs_cons_cons (a b : String) (l : List String) :
    tracePairs (a :: b :: l) = (a, b) :: tracePairs (b :: l) := rfl

/-- Under a validated exclusive-choice cut, every non-empty trace whose
adjacent pairs are all edges lies entirely inside one group. -/
theorem trace_one_group {E : List (String × String)} {gs : List (List String)}
    {as : List String} (hp : isPartitionOf gs as) (hv : xorValid E gs) :
    ∀ u : Trace, (∀ pr ∈ tracePairs u, pr ∈ E) → (∀ b ∈ u, b ∈ as) → u ≠ [] →
      ∃ g ∈ gs, ∀ b ∈ u, b ∈ g := by
  intro u
  induction u with
  | nil => intro _ _ h; exact absurd rfl h
  | cons x rest ih =>
    intro hpr hmem _
    match rest with
    | [] =>
      obtain ⟨g, hg, hxg⟩ := (partition_mem hp x).2 (hmem x (List.mem_cons_self _ _))
      exact ⟨g, hg, by simpa using hxg⟩
    | y :: rest' =>
      obtain ⟨g, hg, hall⟩ := ih
        (fun pr hpr2 => hpr pr (by rw [tracePairs_cons_cons]; exact List.mem_cons_of_mem _ hpr2))
        (fun b hb => hmem b (List.mem_cons_of_mem _ hb)) (by simp)
      obtain ⟨h, hh, hxh⟩ := (partition_mem hp x).2 (hmem x (List.mem_cons_self _ _))
      have hedge : (x, y) ∈ E := hpr (x, y) (by rw [tracePairs_cons_cons]; exact List.mem_cons_self _ _)
      by_cases hgh : h = g
      · exact ⟨g, hg, fun b hb => by
          rcases List.mem_cons.1 hb with rfl | hb
          · exact hgh ▸ hxh
          · exact hall b hb⟩
      · have hsymm : Symmetric (fun g1 g2 : List String =>
            ∀ a ∈ g1, ∀ b ∈ g2, (a, b) ∉ E ∧ (b, a) ∉ E) := by
          intro g1 g2 hr a ha b hb
          exact ⟨(hr b hb a ha).2, (hr b hb a ha).1⟩
        have hno := (hv.forall hsymm) hh hg hgh x hxh y
          (hall y (List.mem_cons_self _ _))
        exact absurd hedge hno.1

/-- Alphabet of an exclusive-choice sub-log. -/
theorem mem_acts_xorSplit {log : Log} {gs : List (List String)}
    (hp : isPartitionOf gs (acts log)) (hv : xorValid (dfEdges log) gs)
    {g : List String} (hg : g ∈ gs) (a : String) :
    a ∈ acts (xorSplit g log) ↔ a ∈ g ∧ a ∈ acts log := by
  constructor
  · intro ha
    obtain ⟨t', ht', hat'⟩ := mem_acts.1 ha
    simp only [xorSplit, List.mem_map, List.mem_filter] at ht'
    obtain ⟨t, ⟨ht, -⟩, rfl⟩ := ht'
    obtain ⟨hat, hag⟩ := mem_projTrace.1 hat'
    exact ⟨hag, mem_acts.2 ⟨t, ht, hat⟩⟩
  · rintro ⟨hag, ha⟩
    obtain ⟨t, ht, hat⟩ := mem_acts.1 ha
    have hne : t ≠ [] := by rintro rfl; simp at hat
    obtain ⟨g2, hg2, hall⟩ := trace_one_group hp hv t
      (fun pr hpr => pair_mem_dfEdges ht hpr)
      (fun b hb => mem_acts.2 ⟨t, ht, hb⟩) hne
    obtain rfl : g2 = g := partition_share_eq hp hg2 hg (hall a hat) hag
    refine mem_acts.2 ⟨projTrace g2 t, ?_, mem_projTrace.2 ⟨hat, hall a hat⟩⟩
    simp only [xorSplit, List.mem_map, List.mem_filter]
    refine ⟨t, ⟨ht, ?_⟩, rfl⟩
    simp only [Bool.and_eq_true, List.all_eq_true]
    constructor
    · simpa [List.isEmpty_iff] using hne
    · intro b hb
      simpa using hall b hb

/-- The body segments flatten to the body-activity filter of the trace. -/
theorem bodySegs_flatten (p : String → Bool) :
    ∀ t : Trace, (bodySegs p t).flatten = t.filter p := by
  intro t
  induction t with
  | nil => simp [bodySegs, runsBy]
  | cons a rest ih =>
    simp only [bodySegs, runsBy] at ih ⊢
    rcases hr : runsBy p rest with _ | ⟨⟨b, seg⟩, more⟩
    · rw [hr] at ih
      simp only [List.filterMap_nil, List.flatten_nil] at ih
      by_cases hpa : p a <;> simp [List.filter_cons, hpa, ← ih]
    · rw [hr] at ih
      by_cases hpb : p a = b
      · subst hpb
        by_cases hpa : p a <;>
          simp_all [List.filter_cons, List.filterMap_cons]
      · by_cases hpa : p a <;> by_cases hb : b <;>
          simp_all [List.filter_cons, List.filterMap_cons]

/-- The non-body segments flatten to the complement filter of the trace. -/
theorem nonBodySegs_flatten (p : String → Bool) :
    ∀ t : Trace, (nonBodySegs p t).flatten = t.filter fun a => !p a := by
  intro t
  induction t with
  | nil => simp [nonBodySegs, runsBy]
  | cons a rest ih =>
    simp only [nonBodySegs, runsBy] at ih ⊢
    rcases hr : runsBy p rest with _ | ⟨⟨b, seg⟩, more⟩
    · rw [hr] at ih
      simp only [List.filterMap_nil, List.flatten_nil] at ih
      by_cases hpa : p a <;> simp [List.filter_cons, hpa, ← ih]
    · rw [hr] at ih
      by_cases hpb : p a = b
      · subst hpb
        by_cases hpa : p a <;>
          simp_all [List.filter_cons, List.filterMap_cons]
      · by_cases hpa : p a <;> by_cases hb : b <;>
          simp_all [List.filter_cons, List.filterMap_cons]

/-- The runs of a trace flatten back to the trace. -/
theorem runsBy_join (p : String → Bool) :
    ∀ t : Trace, ((runsBy p t).map Prod.snd).flatten = t := by
  intro t
  induction t with
  | nil => simp [runsBy]
  | cons a rest ih =>
    simp only [runsBy] at ih ⊢
    rcases hr : runsBy p rest with _ | ⟨⟨b, seg⟩, more⟩
    · rw [hr] at ih
      simp only [List.map_nil, List.flatten_nil] at ih
      simp [← ih]
    · rw [hr] at ih
      by_cases hpb : p a = b <;> simp_all

/-- Both components of a consecutive pair belong to the trace. -/
theorem tracePairs_mem_both {l : List String} {x y : String}
    (h : (x, y) ∈ tracePairs l) : x ∈ l ∧ y ∈ l := by
  induction l with
  | nil => simp [tracePairs] at h
  | cons a rest ih =>
    match rest with
    | [] => simp [tracePairs] at h
    | b :: rest' =>
      rw [tracePairs_cons_cons] at h
      rcases List.mem_cons.1 h with h | h
      · obtain ⟨rfl, rfl⟩ := Prod.mk.injEq .. ▸ h
        injection h with h1 h2
        simp [h1, h2]
      · obtain ⟨hx, hy⟩ := ih h
        exact ⟨List.mem_cons_of_mem _ hx, List.mem_cons_of_mem _ hy⟩

/-- Consecutive pairs survive prefixing one element. -/
theorem tracePairs_cons_sub {l : List String} {pr : String × String} (a : String)
    (h : pr ∈ tracePairs l) : pr ∈ tracePairs (a :: l) := by
  match l with
  | [] => simp [tracePairs] at h
  | b :: l' => rw [tracePairs_cons_cons]; exact List.mem_cons_of_mem _ h

/-- Consecutive pairs of the left part of an append survive the append. -/
theorem tracePairs_append_left {u : List String} (v : List String)
    {pr : String × String} (h : pr ∈ tracePairs u) : pr ∈ tracePairs (u ++ v) := by
  induction u with
  | nil => simp [tracePairs] at h
  | cons a u' ih =>
    match u' with
    | [] => simp [tracePairs] at h
    | b :: u'' =>
      rw [tracePairs_cons_cons] at h
      rcases List.mem_cons.1 h with h | h
      · rw [show (a :: b :: u'') ++ v = a :: b :: (u'' ++ v) from rfl,
          tracePairs_cons_cons]
        exact h ▸ List.mem_cons_self _ _
      · exact tracePairs_cons_sub a (ih h)

/-- Consecutive pairs of the right part of an append survive the append. -/
theorem tracePairs_append_right (u : List String) {v : List String}
    {pr : String × String} (h : pr ∈ tracePairs v) : pr ∈ tracePairs (u ++ v) := by
  induction u with
  | nil => simpa using h
  | cons a u' ih => exact tracePairs_cons_sub a ih

/-- Consecutive pairs of one part of a partition of a list are consecutive
pairs of the flattened list. -/
theorem tracePairs_flatten_sub {parts : List (List String)} {seg : List String}
    (hseg : seg ∈ parts) {pr : String × String} (h : pr ∈ tracePairs seg) :
    pr ∈ tracePairs parts.flatten := by
  induction parts with
  | nil => simp at hseg
  | cons q parts ih =>
    rcases List.mem_cons.1 hseg with rfl | hseg
    · exact tracePairs_append_left _ h
    · exact tracePairs_append_right q (ih hseg)

/-- Membership propagates along a segment when adjacent pairs propagate it in
both directions. -/
theorem chain_prop (P : String → Prop) :
    ∀ seg : List String,
      (∀ x y, (x, y) ∈ tracePairs seg → P x → P y) →
      (∀ x y, (x, y) ∈ tracePairs seg → P y → P x) →
      ∀ a ∈ seg, P a → ∀ b ∈ seg, P b := by
  intro seg
  induction seg with
  | nil => intro _ _ a ha; simp at ha
  | cons x rest ih =>
    intro hfwd hbwd a ha hPa b hb
    have hfwd' : ∀ u v, (u, v) ∈ tracePairs rest → P u → P v :=
      fun u v hm => hfwd u v (tracePairs_cons_sub x hm)
    have hbwd' : ∀ u v, (u, v) ∈ tracePairs rest → P v → P u :=
      fun u v hm => hbwd u v (tracePairs_cons_sub x hm)
    have hhead : P x → ∀ c ∈ rest, P c := by
      intro hPx c hc
      match rest, hc with
      | y :: rest', hc =>
        have hPy : P y := hfwd x y (by rw [tracePairs_cons_cons]; exact List.mem_cons_self _ _) hPx
        exact ih hfwd' hbwd' y (List.mem_cons_self _ _) hPy c hc
    rcases List.mem_cons.1 ha with rfl | ha
    · rcases List.mem_cons.1 hb with rfl | hb
      · exact hPa
      · exact hhead hPa b hb
    · have hPx : P x := by
        match rest, ha with
        | y :: rest', ha =>
          have hPy : P y := ih hfwd' hbwd' a ha hPa y (List.mem_cons_self _ _)
          exact hbwd x y (by rw [tracePairs_cons_cons]; exact List.mem_cons_self _ _) hPy
      rcases List.mem_cons.1 hb with rfl | hb
      · exact hPx
      · exact ih hfwd' hbwd' a ha hPa b hb

/-- Alphabet of the loop body sub-log. -/
theorem mem_acts_bodyLog {body : List String} {log : Log} (a : String) :
    a ∈ acts (bodyLog body log) ↔ a ∈ body ∧ a ∈ acts log := by
  have key : ∀ t : Trace,
      (∃ seg ∈ bodySegs (fun x => body.contains x) t, a ∈ seg) ↔
        a ∈ t.filter fun x => body.contains x := by
    intro t
    rw [← bodySegs_flatten (fun x => body.contains x) t]
    simp [List.mem_flatten]
  simp only [mem_acts, bodyLog, List.mem_flatMap]
  constructor
  · rintro ⟨seg, ⟨t, ht, hseg⟩, ha⟩
    have := (key t).1 ⟨seg, hseg, ha⟩
    simp only [List.mem_filter] at this
    exact ⟨by simpa using this.2, t, ht, this.1⟩
  · rintro ⟨hab, t, ht, hat⟩
    obtain ⟨seg, hseg, ha⟩ := (key t).2 (by simp [List.mem_filter, hat, hab])
    exact ⟨seg, ⟨t, ht, hseg⟩, ha⟩

/-- Elements of a non-body segment are outside the body. -/
theorem nonBodySegs_not_body {p : String → Bool} {t : Trace} {seg : List String}
    (hseg : seg ∈ nonBodySegs p t) : (∀ b ∈ seg, p b = false) ∧ ∀ b ∈ seg, b ∈ t := by
  have hsub : ∀ b ∈ seg, b ∈ (nonBodySegs p t).flatten :=
    fun b hb => List.mem_flatten.2 ⟨seg, hseg, hb⟩
  rw [nonBodySegs_flatten] at hsub
  constructor
  · intro b hb
    have := hsub b hb
    simp only [List.mem_filter, Bool.not_eq_true'] at this
    exact this.2
  · intro b hb
    have := hsub b hb
    simp only [List.mem_filter] at this
    exact this.1

/-- Non-body segments are among the runs of the trace. -/
theorem nonBodySegs_sub_runs {p : String → Bool} {t : Trace} {seg : List String}
    (hseg : seg ∈ nonBodySegs p t) : seg ∈ (runsBy p t).map Prod.snd := by
  simp only [nonBodySegs, List.mem_filterMap] at hseg
  obtain ⟨⟨b, s⟩, hm, hs⟩ := hseg
  by_cases hb : b <;> simp [hb] at hs
  exact hs ▸ List.mem_map.2 ⟨(b, s), hm, rfl⟩

/-- Under a validated loop cut, a non-body segment containing an element of a
redo group lies entirely inside that group. -/
theorem redo_seg_in_group {log : Log} {body : List String}
    {redos : List (List String)} (hp : isPartitionOf (body :: redos) (acts log))
    (hv : loopValid (dfEdges log) (startActs log) (endActs log) body redos)
    {r : List String} (hr : r ∈ redos) {t : Trace} (ht : t ∈ log)
    {seg : List String} (hseg : seg ∈ nonBodySegs (fun x => body.contains x) t)
    {a : String} (ha : a ∈ seg) (har : a ∈ r) : ∀ b ∈ seg, b ∈ r := by
  obtain ⟨hnb, hsub⟩ := nonBodySegs_not_body hseg
  have hpairs : ∀ x y, (x, y) ∈ tracePairs seg → (x, y) ∈ dfEdges log := by
    intro x y hxy
    apply pair_mem_dfEdges ht
    have h1 := tracePairs_flatten_sub (nonBodySegs_sub_runs hseg) hxy
    rwa [runsBy_join] at h1
  obtain ⟨hstarts, hends, hredo⟩ := hv
  refine chain_prop (· ∈ r) seg ?_ ?_ a ha har
  · intro x y hxy hx
    by_contra hy
    have h1 := ((hredo r hr).1 (x, y) (hpairs x y hxy) hx hy)
    have h2 := hstarts y h1
    have h3 := hnb y (tracePairs_mem_both hxy).2
    simp only [Bool.not_eq_true] at h3
    rw [show (body.contains y = false) ↔ y ∉ body by simp] at h3
    exact h3 h2
  · intro x y hxy hy
    by_contra hx
    have h1 := ((hredo r hr).2 (x, y) (hpairs x y hxy) hy hx)
    have h2 := hends x h1
    have h3 := hnb x (tracePairs_mem_both hxy).1
    rw [show (body.contains x = false) ↔ x ∉ body by simp] at h3
    exact h3 h2

/-- Alphabet of the loop redo sub-log. -/
theorem mem_acts_redoLog {log : Log} {body : List String}
    {redos : List (List String)} (hp : isPartitionOf (body :: redos) (acts log))
    (hv : loopValid (dfEdges log) (startActs log) (endActs log) body redos)
    (a : String) :
    a ∈ acts (redoLog redos body log) ↔ a ∈ acts log ∧ a ∉ body := by
  constructor
  · intro ha
    obtain ⟨t', ht', hat'⟩ := mem_acts.1 ha
    simp only [redoLog, List.mem_flatMap, List.mem_filter] at ht'
    obtain ⟨r, hr, t, ht, hseg, -⟩ := ht'
    obtain ⟨hnb, hsub⟩ := nonBodySegs_not_body hseg
    refine ⟨mem_acts.2 ⟨t, ht, hsub a hat'⟩, ?_⟩
    have := hnb a hat'
    rw [show (body.contains a = false) ↔ a ∉ body by simp] at this
    exact this
  · rintro ⟨ha, hab⟩
    have hflat : a ∈ (body :: redos).flatten := hp.2.2.2.2 a ha
    simp only [List.flatten_cons, List.mem_append] at hflat
    rcases hflat with hflat | hflat
    · exact absurd hflat hab
    obtain ⟨r, hr, har⟩ := List.mem_flatten.1 hflat
    obtain ⟨t, ht, hat⟩ := mem_acts.1 ha
    have haf : a ∈ (nonBodySegs (fun x => body.contains x) t).flatten := by
      rw [nonBodySegs_flatten]
      simp [List.mem_filter, hat, hab]
    obtain ⟨seg, hseg, haseg⟩ := List.mem_flatten.1 haf
    have hall := redo_seg_in_group hp hv hr ht hseg haseg har
    apply mem_acts.2
    refine ⟨seg, ?_, haseg⟩
    simp only [redoLog, List.mem_flatMap, List.mem_filter]
    refine ⟨r, hr, t, ht, hseg, ?_⟩
    simp only [List.all_eq_true]
    intro b hb
    simpa using hall b hb

/-- A successful sequence cut is a validated partition. -/
theorem seqCut_some {E : List (String × String)} {as : List String}
    {gs : List (List String)} (h : seqCut E as = some gs) :
    isPartitionOf gs as ∧ seqValid E as gs := by
  simp only [seqCut] at h
  by_cases hc : isPartitionOf (seqCandidate E as) as ∧ seqValid E as (seqCandidate E as)
  · rw [if_pos hc] at h
    exact (Option.some_injective _ h) ▸ hc
  · rw [if_neg hc] at h
    exact absurd h (by simp)

/-- A successful exclusive-choice cut is a validated partition. -/
theorem xorCut_some {E : List (String × String)} {as : List String}
    {gs : List (List String)} (h : xorCut E as = some gs) :
    isPartitionOf gs as ∧ xorValid E gs := by
  simp only [xorCut] at h
  by_cases hc : isPartitionOf
      (componentsOf (fun a b => E.contains (a, b) || E.contains (b, a)) as) as ∧
      xorValid E (componentsOf (fun a b => E.contains (a, b) || E.contains (b, a)) as)
  · rw [if_pos hc] at h
    exact (Option.some_injective _ h) ▸ hc
  · rw [if_neg hc] at h
    exact absurd h (by simp)

/-- A successful parallel cut is a validated partition. -/
theorem parCut_some {E : List (String × String)} {starts ends' : List String}
    {log : Log} {as : List String} {gs : List (List String)}
    (h : parCut E starts ends' log as = some gs) :
    isPartitionOf gs as ∧ parValid E starts ends' log gs := by
  simp only [parCut] at h
  by_cases hc : isPartitionOf
      (componentsOf (fun a b => !(E.contains (a, b) && E.contains (b, a))) as) as ∧
      parValid E starts ends' log
        (componentsOf (fun a b => !(E.contains (a, b) && E.contains (b, a))) as)
  · rw [if_pos hc] at h
    exact (Option.some_injective _ h) ▸ hc
  · rw [if_neg hc] at h
    exact absurd h (by simp)

/-- A successful loop cut is a validated partition into body and redo groups. -/
theorem loopCut_some {E : List (String × String)} {starts ends' : List String}
    {as body : List String} {redos : List (List String)}
    (h : loopCut E starts ends' as = some (body, redos)) :
    isPartitionOf (body :: redos) as ∧ loopValid E starts ends' body redos := by
  simp only [loopCut] at h
  set bodyC := as.filter fun a => starts.contains a || ends'.contains a with hbody
  set restC := as.filter fun a => !(starts.contains a || ends'.contains a) with hrest
  set redosC := componentsOf
    (fun a b => E.contains (a, b) || E.contains (b, a)) restC with hredos
  by_cases hc : isPartitionOf (bodyC :: redosC) as ∧ loopValid E starts ends' bodyC redosC
  · rw [if_pos hc] at h
    have h2 := Option.some_injective _ h
    obtain ⟨h3, h4⟩ := Prod.mk.injEq .. ▸ h2
    injection h2 with h3 h4
    subst h3 h4
    exact hc
  · rw [if_neg hc] at h
    exact absurd h (by simp)

/-- Labels of an appended list of trees. -/
theorem treeLabelsList_append (l1 l2 : List PTree) :
    treeLabelsList (l1 ++ l2) = treeLabelsList l1 ++ treeLabelsList l2 := by
  induction l1 with
  | nil => simp [treeLabelsList]
  | cons c l1 ih => simp [treeLabelsList, ih]

/-- Membership in the labels of a mapped list of trees. -/
theorem mem_treeLabelsList_map {α : Type} (f : α → PTree) (l : List α) (a : String) :
    a ∈ treeLabelsList (l.map f) ↔ ∃ g ∈ l, a ∈ treeLabels (f g) := by
  induction l with
  | nil => simp [treeLabelsList]
  | cons g l ih => simp [treeLabelsList, ih]

/-- Labels of the choice over activity leaves. -/
theorem treeLabelsList_map_act (l : List String) :
    treeLabelsList (l.map PTree.act) = l := by
  induction l with
  | nil => simp [treeLabelsList]
  | cons a l ih => simp [treeLabelsList, treeLabels, ih]

/-- The flower model's labels are exactly its alphabet. -/
theorem treeLabels_flower (as : List String) : treeLabels (flower as) = as := by
  match as with
  | [] => rfl
  | [a] => rfl
  | a :: b :: rest =>
    show treeLabels (.loop .tau (.xor ((a :: b :: rest).map .act))) = _
    simp [treeLabels, treeLabelsList, treeLabelsList_map_act]

/-- Inversion of the single-activity base case. -/
theorem baseSingle_some {as : List String} {log : Log} {a : String}
    (h : baseSingle as log = some a) : as = [a] ∧ ∀ t ∈ log, t = [a] := by
  match as, h with
  | [a'], h =>
    simp only [baseSingle] at h
    by_cases hall : log.all fun t => t == [a']
    · rw [if_pos hall] at h
      obtain rfl := Option.some_injective _ h
      refine ⟨rfl, fun t ht => ?_⟩
      simpa using List.all_eq_true.1 hall t ht
    · rw [if_neg hall] at h
      exact absurd h (by simp)

/-- The leaf labels of the discovered process tree are exactly the log's
alphabet. -/
theorem mineTree_labels : ∀ (fuel : Nat) (log : Log) (a : String),
    a ∈ treeLabels (mineTree fuel log) ↔ a ∈ acts log := by
  intro fuel
  induction fuel with
  | zero =>
    intro log a
    rw [mineTree]
    by_cases h0 : acts log = []
    · simp [h0, treeLabels]
    · rcases hbs : baseSingle (acts log) log with _ | a0
      · simp only [if_neg h0, hbs, if_false]
        simp [treeLabels_flower, h0]
      · obtain ⟨has, -⟩ := baseSingle_some hbs
        simp [h0, hbs, treeLabels, has]
  | succ n ih =>
    intro log a
    rw [mineTree]
    by_cases h0 : acts log = []
    · simp [h0, treeLabels]
    · rcases hbs : baseSingle (acts log) log with _ | a0
      swap
      · obtain ⟨has, -⟩ := baseSingle_some hbs
        simp [h0, hbs, treeLabels, has]
      rcases hsc : seqCut (dfEdges log) (acts log) with _ | gs
      · rcases hxc : xorCut (dfEdges log) (acts log) with _ | gs
        · rcases hpc : parCut (dfEdges log) (startActs log) (endActs log) log (acts log)
            with _ | gs
          · rcases hlc : loopCut (dfEdges log) (startActs log) (endActs log) (acts log)
              with _ | ⟨body, redos⟩
            · simp only [if_neg h0, hbs, hsc, hxc, hpc, hlc]
              simp [treeLabels_flower, h0]
            · obtain ⟨hp, hv⟩ := loopCut_some hlc
              simp only [if_neg h0, hbs, hsc, hxc, hpc, hlc]
              rw [show treeLabels (.loop (mineTree n (bodyLog body log))
                  (mineTree n (redoLog redos body log))) =
                treeLabels (mineTree n (bodyLog body log)) ++
                  treeLabels (mineTree n (redoLog redos body log)) from rfl]
              rw [List.mem_append, ih (bodyLog body log) a, ih (redoLog redos body log) a,
                mem_acts_bodyLog, mem_acts_redoLog hp hv]
              constructor
              · rintro (⟨-, h⟩ | ⟨h, -⟩) <;> exact h
              · intro ha
                by_cases hb : a ∈ body
                · exact Or.inl ⟨hb, ha⟩
                · exact Or.inr ⟨ha, hb⟩
          · obtain ⟨hp, -⟩ := parCut_some hpc
            simp only [if_neg h0, hbs, hsc, hxc, hpc]
            rw [show treeLabels (.par (gs.map fun g => mineTree n (projLog g log))) =
              treeLabelsList (gs.map fun g => mineTree n (projLog g log)) from rfl]
            rw [mem_treeLabelsList_map]
            constructor
            · rintro ⟨g, hg, ha⟩
              exact (mem_acts_projLog.1 ((ih (projLog g log) a).1 ha)).2
            · intro ha
              obtain ⟨g, hg, hag⟩ := (partition_mem hp a).2 ha
              exact ⟨g, hg, (ih (projLog g log) a).2 (mem_acts_projLog.2 ⟨hag, ha⟩)⟩
        · obtain ⟨hp, hv⟩ := xorCut_some hxc
          simp only [if_neg h0, hbs, hsc, hxc]
          rw [show treeLabels (.xor ((gs.map fun g => mineTree n (xorSplit g log)) ++
              (if log.any List.isEmpty then [.tau] else []))) =
            treeLabelsList ((gs.map fun g => mineTree n (xorSplit g log)) ++
              (if log.any List.isEmpty then [.tau] else [])) from rfl]
          rw [treeLabelsList_append]
          have htau : treeLabelsList (if log.any List.isEmpty then [PTree.tau] else []) = [] := by
            by_cases hc : log.any List.isEmpty <;> simp [hc, treeLabelsList, treeLabels]
          rw [htau, List.append_nil, mem_treeLabelsList_map]
          constructor
          · rintro ⟨g, hg, ha⟩
            exact ((mem_acts_xorSplit hp hv hg a).1 ((ih (xorSplit g log) a).1 ha)).2
          · intro ha
            obtain ⟨g, hg, hag⟩ := (partition_mem hp a).2 ha
            exact ⟨g, hg, (ih (xorSplit g log) a).2
              ((mem_acts_xorSplit hp hv hg a).2 ⟨hag, ha⟩)⟩
      · obtain ⟨hp, -⟩ := seqCut_some hsc
        simp only [if_neg h0, hbs, hsc]
        rw [show treeLabels (.seq (gs.map fun g => mineTree n (projLog g log))) =
          treeLabelsList (gs.map fun g => mineTree n (projLog g log)) from rfl]
        rw [mem_treeLabelsList_map]
        constructor
        · rintro ⟨g, hg, ha⟩
          exact (mem_acts_projLog.1 ((ih (projLog g log) a).1 ha)).2
        · intro ha
          obtain ⟨g, hg, hag⟩ := (partition_mem hp a).2 ha
          exact ⟨g, hg, (ih (projLog g log) a).2 (mem_acts_projLog.2 ⟨hag, ha⟩)⟩

/-! ## Glue code embedded from src/main.py and src/generate_big_dataset.py -/

/-- Embedded from src/main.py, `load_event_log`: the filesystem is a map from
paths to file contents; CSV parsing and conversion (pandas and the log
converter, both external collaborators per spec sections 1 and 6) are an
opaque parameter applied only after the existence check passes. -/
def load_event_log (fs : String → Option String) (parseCsv : String → Log)
    (csv_path : String) : Except String Log :=
  match fs csv_path with
  | none => .error ("Could not find event log file: " ++ csv_path)
  | some content => .ok (parseCsv content)

/-- The distinct suggestion messages produced by `generate_suggestions`,
as a closed set of tagged variants (string formatting abstracted away). -/
inductive Suggestion where
  | deviatingHeader (threshold : ℚ)
  | deviatingCase (idx : Nat) (fitness : ℚ)
  | quizTooLong
  | quizReasonable (mins : ℚ)
  | durationHigh
  | durationReasonable (mins : ℚ)
  | noMajorDeviations
deriving DecidableEq

/-- The performance metrics consumed by `generate_suggestions`: optional
average quiz time and the average session duration, in minutes. -/
structure AnalysisResults where
  avg_quiz_time : Option ℚ
  avg_duration : ℚ

/-- Embedded from src/main.py, `generate_suggestions`: flag traces below the
fitness threshold, comment on the average quiz time when available, comment
on the average session duration, and fall back to a no-deviations message
only when no suggestion was produced. -/
def generate_suggestions (analysis : AnalysisResults) (alignments : List ℚ)
    (threshold : ℚ) : List Suggestion :=
  let flagged := alignments.enum.filter fun p => p.2 < threshold
  let s1 : List Suggestion :=
    if flagged.isEmpty then []
    else Suggestion.deviatingHeader threshold ::
      flagged.map fun p => Suggestion.deviatingCase p.1 p.2
  let s2 : List Suggestion :=
    match analysis.avg_quiz_time with
    | none => []
    | some q => if 10 < q then [Suggestion.quizTooLong] else [Suggestion.quizReasonable q]
  let s3 : List Suggestion :=
    if 20 < analysis.avg_duration then [Suggestion.durationHigh]
    else [Suggestion.durationReasonable analysis.avg_duration]
  let suggestions := s1 ++ s2 ++ s3
  if suggestions.isEmpty then [Suggestion.noMajorDeviations] else suggestions

/-- Uniform draw in `[lo, hi)` from one raw random value, the range contract
of `np.random.randint(lo, hi)`. -/
def randint (lo hi raw : Nat) : Nat := lo + raw % (hi - lo)

/-- Embedded from src/generate_big_dataset.py, `generate_synthetic_log`, one
case: the random stream `g` supplies the raw draws in the order the source
consumes them (index threaded); timestamps are minutes after the base date.
Returns the case's events and the next unused draw index. -/
def genCase (g : Nat → Nat) (i0 : Nat) : List (String × Nat) × Nat :=
  let t0 := randint 0 600 (g i0)
  let i1 := i0 + 1
  let viewC := g i1 % 100 < 80
  let i2 := i1 + 1
  let r1 : List (String × Nat) × Nat × Nat :=
    if viewC then
      let d := randint 1 10 (g i2)
      ([("View_Content", t0 + d)], t0 + d, i2 + 1)
    else ([], t0, i2)
  let attemptQ := g r1.2.2 % 100 < 90
  let i3 := r1.2.2 + 1
  let r2 : List (String × Nat) × Nat × Nat :=
    if attemptQ then
      let d := randint 1 5 (g i3)
      let tA := r1.2.1 + d
      let i4 := i3 + 1
      let submitQ := g i4 % 100 < 80
      let i5 := i4 + 1
      if submitQ then
        let d2 := randint 2 15 (g i5)
        ([("Attempt_Quiz", tA), ("Submit_Quiz", tA + d2)], tA + d2, i5 + 1)
      else ([("Attempt_Quiz", tA)], tA, i5)
    else ([], r1.2.1, i3)
  let d3 := randint 1 5 (g r2.2.2)
  (("Login", t0) :: r1.1 ++ r2.1 ++ [("Logout", r2.2.1 + d3)], r2.2.2 + 1)

/-- Generate the given number of cases, threading the draw index. -/
def genCases (g : Nat → Nat) : Nat → Nat → List (List (String × Nat))
  | 0, _ => []
  | n + 1, i =>
    let r := genCase g i
    r.1 :: genCases g n r.2

/-- Embedded from src/generate_big_dataset.py, `generate_synthetic_log`:
the synthetic event log as a list of cases, each an ordered list of
(activity, timestamp) events. -/
def generate_synthetic_log (g : Nat → Nat) (num_cases : Nat) :
    List (List (String × Nat)) :=
  genCases g num_cases 0

/-! ## Claim C3: empty-log aggregate -/

/-- C3: `conformance_check` returns the arithmetic mean of the per-trace
fitness values as the aggregate fitness, and returns 0 (never raising a
division-by-zero error) when the log contains no traces. -/
theorem conformance_check_average (log : Log) (T : List PNTrans) (im fm : Marking) :
    (log = [] → (conformance_check log T im fm).2 = 0) ∧
    (∀ vals, vals = (apply_log log T im fm).filterMap id → vals ≠ [] →
      (conformance_check log T im fm).2 = vals.sum / (vals.length : ℚ)) := by
  constructor
  · rintro rfl
    simp [conformance_check, apply_log]
  · intro vals hv hne
    simp only [conformance_check, ← hv]
    rw [if_neg (by simpa [List.isEmpty_iff] using hne)]

/-- Witness for C3 at the empty log. -/
theorem conformance_check_average_witness : (conformance_check [] [] [] []).2 = 0 :=
  (conformance_check_average [] [] [] []).1 rfl

/-! ## Claim C6: alignment determinism -/

/-- C6: for a fixed trace and a fixed Petri net with its markings, two runs
of the alignment computation return the same cost and the same fitness
value: the modelled engine is a pure function of the trace and the net. -/
theorem alignment_deterministic (t1 t2 : Trace) (T1 T2 : List PNTrans)
    (im1 im2 fm1 fm2 : Marking) (ht : t1 = t2) (hT : T1 = T2)
    (him : im1 = im2) (hfm : fm1 = fm2) :
    searchCost t1 T1 im1 fm1 = searchCost t2 T2 im2 fm2 ∧
    alignTrace t1 T1 im1 fm1 = alignTrace t2 T2 im2 fm2 := by
  subst ht hT him hfm
  exact ⟨rfl, rfl⟩

/-- Witness for C6 at a concrete trace and net. -/
theorem alignment_deterministic_witness :
    searchCost ["Login"] [⟨some "Login", [0], [1]⟩] [0] [1] =
      searchCost ["Login"] [⟨some "Login", [0], [1]⟩] [0] [1] ∧
    alignTrace ["Login"] [⟨some "Login", [0], [1]⟩] [0] [1] =
      alignTrace ["Login"] [⟨some "Login", [0], [1]⟩] [0] [1] :=
  alignment_deterministic _ _ _ _ _ _ _ _ rfl rfl rfl rfl

/-! ## Claim C8: load_event_log existence check -/

/-- C8: `load_event_log` fails with the file-not-found error exactly when the
path names no existing file, and does so without reading or converting any
data (the outcome is then independent of the parser); when the file exists,
the result is the parsed log and no such error is raised. -/
theorem load_event_log_spec (fs : String → Option String)
    (parseCsv : String → Log) (csv_path : String) :
    (fs csv_path = none →
      load_event_log fs parseCsv csv_path =
        .error ("Could not find event log file: " ++ csv_path) ∧
      ∀ parse2 : String → Log,
        load_event_log fs parse2 csv_path = load_event_log fs parseCsv csv_path) ∧
    (∀ c, fs csv_path = some c →
      load_event_log fs parseCsv csv_path = .ok (parseCsv c)) := by
  constructor
  · intro h
    constructor
    · simp [load_event_log, h]
    · intro parse2
      simp [load_event_log, h]
  · intro c h
    simp [load_event_log, h]

/-- Witness for C8 on a one-file filesystem, hitting both the missing and the
existing path. -/
theorem load_event_log_spec_witness :
    load_event_log (fun p => if p = "log.csv" then some "data" else none)
        (fun _ => [["Login"]]) "missing.csv" =
      .error ("Could not find event log file: " ++ "missing.csv") ∧
    load_event_log (fun p => if p = "log.csv" then some "data" else none)
        (fun _ => [["Login"]]) "log.csv" = .ok [["Login"]] :=
  ⟨((load_event_log_spec (fun p => if p = "log.csv" then some "data" else none)
      (fun _ => [["Login"]]) "missing.csv").1 (by decide)).1,
    (load_event_log_spec (fun p => if p = "log.csv" then some "data" else none)
      (fun _ => [["Login"]]) "log.csv").2 "data" (by decide)⟩

/-! ## Claim C9: generate_suggestions is never empty -/

/-- C9: `generate_suggestions` always returns a non-empty list: the
average-session-duration branch appends a suggestion unconditionally, so the
no-deviations fallback branch is unreachable. -/
theorem generate_suggestions_nonempty (analysis : AnalysisResults)
    (alignments : List ℚ) (threshold : ℚ) :
    generate_suggestions analysis alignments threshold ≠ [] ∧
    Suggestion.noMajorDeviations ∉ generate_suggestions analysis alignments threshold := by
  unfold generate_suggestions
  simp only []
  set flagged := alignments.enum.filter fun p => p.2 < threshold with hfl
  rcases hq : analysis.avg_quiz_time with _ | q <;>
    rcases hf : flagged.isEmpty with _ | _ <;>
      by_cases hd : 20 < analysis.avg_duration <;>
        simp [hq, hf, hd] <;>
          first
            | (intro x hx; rcases List.mem_map.1 hx with ⟨p, _, rfl⟩; simp)
            | (by_cases h10 : 10 < q <;> simp [h10] <;>
                (try intro x hx) <;>
                (try rcases List.mem_map.1 hx with ⟨p, _, rfl⟩) <;> simp)

/-! ## Correctness of the alignment search

The search table is related to walks in the synchronous product: every
recorded cost is backed by a walk of at most that cost (soundness), and at a
fixed point every walk's cost is matched by a recorded cost at most it
(stability), so a returned cost is the optimal walk cost. -/

/-- A walk in the synchronous product, accumulating move costs. -/
inductive SPWalk (t : Trace) (T : List PNTrans) : SPState → SPState → Nat → Prop where
  | refl (s : SPState) : SPWalk t T s s 0
  | step {s s1 s2 : SPState} {c w : Nat} :
      SPWalk t T s s1 c → (s2, w) ∈ spMoves t T s1 → SPWalk t T s s2 (c + w)

/-- Walks compose, adding costs. -/
theorem SPWalk.glue {t : Trace} {T : List PNTrans} {a b d : SPState} {c1 c2 : Nat}
    (h1 : SPWalk t T a b c1) (h2 : SPWalk t T b d c2) : SPWalk t T a d (c1 + c2) := by
  induction h2 with
  | refl => exact h1
  | step hw hm ih => exact (Nat.add_assoc _ _ _) ▸ SPWalk.step ih hm

/-- Updating a key absent from the table records the new cost. -/
theorem lookupT_updateT_none {tbl : SPTable} {e : SPState × Nat}
    (h : lookupT tbl e.1 = none) : lookupT (updateT tbl e) e.1 = some e.2 := by
  induction tbl with
  | nil => simp [updateT, lookupT]
  | cons hd rest ih =>
    obtain ⟨s, c⟩ := hd
    by_cases hs : s = e.1
    · simp [lookupT, hs] at h
    · simp [lookupT, hs] at h
      simp [updateT, lookupT, hs, ih h]

/-- Updating a key present in the table keeps the minimum cost. -/
theorem lookupT_updateT_some {tbl : SPTable} {e : SPState × Nat} {c : Nat}
    (h : lookupT tbl e.1 = some c) :
    lookupT (updateT tbl e) e.1 = some (min c e.2) := by
  induction tbl with
  | nil => simp [lookupT] at h
  | cons hd rest ih =>
    obtain ⟨s, c0⟩ := hd
    by_cases hs : s = e.1
    · simp [lookupT, hs] at h
      simp [updateT, lookupT, hs, h]
    · simp [lookupT, hs] at h
      simp [updateT, lookupT, hs, ih h]

/-- An update leaves every other key unchanged. -/
theorem lookupT_updateT_ne {tbl : SPTable} {e : SPState × Nat} {k : SPState}
    (h : k ≠ e.1) : lookupT (updateT tbl e) k = lookupT tbl k := by
  induction tbl with
  | nil =>
    simp [updateT, lookupT]
    exact fun h2 => h h2.symm
  | cons hd rest ih =>
    obtain ⟨s, c⟩ := hd
    by_cases hs : s = e.1
    · subst hs
      simp [updateT, lookupT, Ne.symm h]
    · by_cases hsk : s = k <;> simp [updateT, lookupT, hs, hsk, h, ih]

/-- One update never increases the recorded cost of any key. -/
theorem lookupT_updateT_le {tbl : SPTable} {e : SPState × Nat} {k : SPState} {c : Nat}
    (h : lookupT tbl k = some c) :
    ∃ c2 ≤ c, lookupT (updateT tbl e) k = some c2 := by
  by_cases hk : k = e.1
  · subst hk
    exact ⟨min c e.2, min_le_left _ _, lookupT_updateT_some h⟩
  · exact ⟨c, le_refl c, (lookupT_updateT_ne hk).trans h⟩

/-- Folding updates never increases a recorded cost. -/
theorem lookupT_foldl_le (cs : List (SPState × Nat)) :
    ∀ (tbl : SPTable) (k : SPState) (c : Nat), lookupT tbl k = some c →
      ∃ c2 ≤ c, lookupT (cs.foldl updateT tbl) k = some c2 := by
  induction cs with
  | nil => exact fun tbl k c h => ⟨c, le_refl c, h⟩
  | cons e cs ih =>
    intro tbl k c h
    obtain ⟨c1, hc1, h1⟩ := lookupT_updateT_le (e := e) h
    obtain ⟨c2, hc2, h2⟩ := ih (updateT tbl e) k c1 h1
    exact ⟨c2, le_trans hc2 hc1, h2⟩

/-- Folding updates records every candidate at no more than its cost. -/
theorem lookupT_foldl_mem (cs : List (SPState × Nat)) :
    ∀ (tbl : SPTable) (k : SPState) (v : Nat), (k, v) ∈ cs →
      ∃ c ≤ v, lookupT (cs.foldl updateT tbl) k = some c := by
  induction cs with
  | nil => intro tbl k v h; simp at h
  | cons e cs ih =>
    intro tbl k v h
    rcases List.mem_cons.1 h with h | h
    · obtain rfl : e = (k, v) := h.symm
      have h1 : ∃ c1 ≤ v, lookupT (updateT tbl (k, v)) k = some c1 := by
        match hl : lookupT tbl k with
        | none => exact ⟨v, le_refl v, lookupT_updateT_none hl⟩
        | some c0 => exact ⟨min c0 v, min_le_right _ _, lookupT_updateT_some hl⟩
      obtain ⟨c1, hc1, h1⟩ := h1
      obtain ⟨c2, hc2, h2⟩ := lookupT_foldl_le cs (updateT tbl (k, v)) k c1 h1
      exact ⟨c2, le_trans hc2 hc1, h2⟩
    · exact ih (updateT tbl e) k v h

/-- A successful lookup comes from a table entry. -/
theorem mem_of_lookupT {tbl : SPTable} {k : SPState} {c : Nat}
    (h : lookupT tbl k = some c) : (k, c) ∈ tbl := by
  induction tbl with
  | nil => simp [lookupT] at h
  | cons hd rest ih =>
    obtain ⟨s, v⟩ := hd
    by_cases hs : s = k
    · subst hs
      simp [lookupT] at h
      simp [h]
    · simp [lookupT, hs] at h
      exact List.mem_cons_of_mem _ (ih h)

/-- Membership in an updated table: an entry is an old entry, the new entry,
or the minimum combination at the new key. -/
theorem mem_updateT {tbl : SPTable} {x e : SPState × Nat} (h : e ∈ updateT tbl x) :
    e ∈ tbl ∨ e.1 = x.1 ∧
      (e.2 = x.2 ∨ ∃ c0, (x.1, c0) ∈ tbl ∧ e.2 = min c0 x.2) := by
  induction tbl with
  | nil =>
    simp [updateT] at h
    subst h
    exact Or.inr ⟨rfl, Or.inl rfl⟩
  | cons hd rest ih =>
    obtain ⟨s, c⟩ := hd
    by_cases hs : s = x.1
    · subst hs
      simp [updateT] at h
      rcases h with h | h
      · subst h
        exact Or.inr ⟨rfl, Or.inr ⟨c, List.mem_cons_self _ _, rfl⟩⟩
      · exact Or.inl (List.mem_cons_of_mem _ h)
    · simp [updateT, hs] at h
      rcases h with h | h
      · exact Or.inl (by simp [h])
      · rcases ih h with h2 | ⟨h2, h3⟩
        · exact Or.inl (List.mem_cons_of_mem _ h2)
        · refine Or.inr ⟨h2, ?_⟩
          rcases h3 with h3 | ⟨c0, hc0, h3⟩
          · exact Or.inl h3
          · exact Or.inr ⟨c0, List.mem_cons_of_mem _ hc0, h3⟩

/-- Soundness invariant of the search table: every entry is backed by a walk
from the start state of at most the recorded cost. -/
def TblSound (t : Trace) (T : List PNTrans) (s0 : SPState) (tbl : SPTable) : Prop :=
  ∀ e ∈ tbl, ∃ c ≤ e.2, SPWalk t T s0 e.1 c

/-- Updating with a walk-backed candidate preserves table soundness. -/
theorem updateT_sound {t : Trace} {T : List PNTrans} {s0 : SPState} {tbl : SPTable}
    {x : SPState × Nat} (hs : TblSound t T s0 tbl)
    (hx : ∃ c ≤ x.2, SPWalk t T s0 x.1 c) : TblSound t T s0 (updateT tbl x) := by
  intro e he
  rcases mem_updateT he with he | ⟨he1, he2⟩
  · exact hs e he
  · rcases he2 with he2 | ⟨c0, hc0, he2⟩
    · obtain ⟨c, hc, hwalk⟩ := hx
      exact ⟨c, he2 ▸ hc, he1 ▸ hwalk⟩
    · rcases le_total c0 x.2 with hle | hle
      · obtain ⟨c, hc, hwalk⟩ := hs (x.1, c0) hc0
        exact ⟨c, by rw [he2, min_eq_left hle]; exact hc, he1 ▸ hwalk⟩
      · obtain ⟨c, hc, hwalk⟩ := hx
        exact ⟨c, by rw [he2, min_eq_right hle]; exact hc, he1 ▸ hwalk⟩

/-- Every candidate produced from a sound table is walk-backed. -/
theorem candidatesT_sound {t : Trace} {T : List PNTrans} {s0 : SPState} {tbl : SPTable}
    (hs : TblSound t T s0 tbl) :
    ∀ x ∈ candidatesT t T tbl, ∃ c ≤ x.2, SPWalk t T s0 x.1 c := by
  intro x hx
  simp only [candidatesT, List.mem_flatMap, List.mem_map] at hx
  obtain ⟨e, he, m, hm, rfl⟩ := hx
  obtain ⟨c, hc, hwalk⟩ := hs e he
  exact ⟨c + m.2, Nat.add_le_add_right hc _, SPWalk.step hwalk (by simpa using hm)⟩

/-- Folding walk-backed candidates preserves soundness. -/
theorem foldl_updateT_sound {t : Trace} {T : List PNTrans} {s0 : SPState} :
    ∀ (cs : List (SPState × Nat)) (tbl : SPTable), TblSound t T s0 tbl →
      (∀ x ∈ cs, ∃ c ≤ x.2, SPWalk t T s0 x.1 c) →
      TblSound t T s0 (cs.foldl updateT tbl) := by
  intro cs
  induction cs with
  | nil => exact fun tbl hs _ => hs
  | cons e cs ih =>
    intro tbl hs hcs
    exact ih (updateT tbl e) (updateT_sound hs (hcs e (List.mem_cons_self _ _)))
      fun x hx => hcs x (List.mem_cons_of_mem _ hx)

/-- One relaxation round preserves soundness. -/
theorem stepT_sound {t : Trace} {T : List PNTrans} {s0 : SPState} {tbl : SPTable}
    (hs : TblSound t T s0 tbl) : TblSound t T s0 (stepT t T tbl) :=
  foldl_updateT_sound _ tbl hs (candidatesT_sound hs)

/-- Saturation preserves soundness. -/
theorem saturate_sound {t : Trace} {T : List PNTrans} {s0 : SPState} :
    ∀ (fuel : Nat) (tbl : SPTable), TblSound t T s0 tbl →
      TblSound t T s0 (saturate t T fuel tbl).1 := by
  intro fuel
  induction fuel with
  | zero => exact fun tbl hs => hs
  | succ n ih =>
    intro tbl hs
    simp only [saturate]
    by_cases h : stepT t T tbl = tbl
    · simpa [h] using hs
    · simpa [h] using ih (stepT t T tbl) (stepT_sound hs)

/-- Saturation never increases a recorded cost. -/
theorem saturate_lookup_le {t : Trace} {T : List PNTrans} :
    ∀ (fuel : Nat) (tbl : SPTable) (k : SPState) (c : Nat), lookupT tbl k = some c →
      ∃ c2 ≤ c, lookupT (saturate t T fuel tbl).1 k = some c2 := by
  intro fuel
  induction fuel with
  | zero => exact fun tbl k c h => ⟨c, le_refl c, h⟩
  | succ n ih =>
    intro tbl k c h
    simp only [saturate]
    by_cases hfix : stepT t T tbl = tbl
    · exact ⟨c, le_refl c, by simpa [hfix] using h⟩
    · obtain ⟨c1, hc1, h1⟩ := lookupT_foldl_le _ tbl k c h
      obtain ⟨c2, hc2, h2⟩ := ih (stepT t T tbl) k c1 h1
      exact ⟨c2, le_trans hc2 hc1, by simpa [hfix] using h2⟩

/-- When saturation reports success, the returned table is a fixed point of
the relaxation round. -/
theorem saturate_fix {t : Trace} {T : List PNTrans} :
    ∀ (fuel : Nat) (tbl : SPTable), (saturate t T fuel tbl).2 = true →
      stepT t T (saturate t T fuel tbl).1 = (saturate t T fuel tbl).1 := by
  intro fuel
  induction fuel with
  | zero => intro tbl h; simp [saturate] at h
  | succ n ih =>
    intro tbl h
    simp only [saturate] at h ⊢
    by_cases hfix : stepT t T tbl = tbl
    · simpa [hfix] using hfix
    · simpa [hfix] using ih (stepT t T tbl) (by simpa [hfix] using h)

/-- At a fixed point, every edge relaxation is already accounted for. -/
theorem stepT_fix_relax {t : Trace} {T : List PNTrans} {tbl : SPTable}
    (hfix : stepT t T tbl = tbl) :
    ∀ e ∈ tbl, ∀ m ∈ spMoves t T e.1,
      ∃ c ≤ e.2 + m.2, lookupT tbl m.1 = some c := by
  intro e he m hm
  have hcand : (m.1, e.2 + m.2) ∈ candidatesT t T tbl := by
    simp only [candidatesT, List.mem_flatMap, List.mem_map]
    exact ⟨e, he, m, hm, rfl⟩
  obtain ⟨c, hc, h⟩ := lookupT_foldl_mem _ tbl m.1 (e.2 + m.2) hcand
  exact ⟨c, hc, by rw [← hfix]; exact h⟩

/-- At a fixed point reached from the start state, every walk's cost is
matched by a recorded cost at most it. -/
theorem fix_complete {t : Trace} {T : List PNTrans} {s0 : SPState} {tbl : SPTable}
    (hfix : stepT t T tbl = tbl) (c0 : Nat) (hc0 : c0 ≤ 0)
    (hinit : lookupT tbl s0 = some c0) :
    ∀ (s : SPState) (c : Nat), SPWalk t T s0 s c → ∃ c2 ≤ c, lookupT tbl s = some c2 := by
  intro s c hwalk
  induction hwalk with
  | refl => exact ⟨c0, hc0, hinit⟩
  | step hw hm ih =>
    obtain ⟨c2, hc2, h2⟩ := ih
    obtain ⟨c3, hc3, h3⟩ := stepT_fix_relax hfix _ (mem_of_lookupT h2) _ hm
    exact ⟨c3, le_trans hc3 (Nat.add_le_add_right hc2 _), h3⟩

/-- A returned search cost is backed by a walk of at most that cost. -/
theorem searchCost_sound {t : Trace} {T : List PNTrans} {im fm : Marking} {c : Nat}
    (h : searchCost t T im fm = some c) :
    ∃ c2 ≤ c, SPWalk t T (0, sortMk im) (t.length, sortMk fm) c2 := by
  simp only [searchCost] at h
  by_cases hok : (saturate t T (searchFuel t T) [((0, sortMk im), 0)]).2
  · rw [if_pos hok] at h
    have hs : TblSound t T (0, sortMk im)
        (saturate t T (searchFuel t T) [((0, sortMk im), 0)]).1 := by
      apply saturate_sound
      intro e he
      simp at he
      subst he
      exact ⟨0, le_refl 0, SPWalk.refl _⟩
    exact hs _ (mem_of_lookupT h)
  · rw [if_neg hok] at h
    exact absurd h (by simp)

/-- A returned search cost is at most the cost of any walk from the start
state to the goal state. -/
theorem searchCost_le_walk {t : Trace} {T : List PNTrans} {im fm : Marking} {c k : Nat}
    (h : searchCost t T im fm = some c)
    (hw : SPWalk t T (0, sortMk im) (t.length, sortMk fm) k) : c ≤ k := by
  simp only [searchCost] at h
  by_cases hok : (saturate t T (searchFuel t T) [((0, sortMk im), 0)]).2
  · rw [if_pos hok] at h
    have hfix := saturate_fix (t := t) (T := T) (searchFuel t T) [((0, sortMk im), 0)] hok
    have hinit0 : lookupT [((0, sortMk im), 0)] (0, sortMk im) = some 0 := by
      simp [lookupT]
    obtain ⟨c0, hc0, hinit⟩ :=
      saturate_lookup_le (t := t) (T := T) (searchFuel t T) _ _ _ hinit0
    obtain ⟨c2, hc2, h2⟩ := fix_complete hfix c0 hc0 hinit _ _ hw
    rw [h] at h2
    exact (Option.some_injective _ h2).symm ▸ hc2
  · rw [if_neg hok] at h
    exact absurd h (by simp)

/-- Log-only moves walk the position forward at cost one per step. -/
theorem walk_log_moves (t : Trace) (T : List PNTrans) (m : Marking) (p : Nat) :
    ∀ n : Nat, p + n ≤ t.length → SPWalk t T (p, m) (p + n, m) n := by
  intro n
  induction n with
  | zero => exact fun _ => SPWalk.refl _
  | succ n ih =>
    intro h
    have hlt : p + n < t.length := by omega
    have hmem : (((p + n + 1, m) : SPState), 1) ∈ spMoves t T (p + n, m) := by
      apply List.mem_append.2 (Or.inl (List.mem_append.2 (Or.inr _)))
      simp [hlt]
    exact SPWalk.step (ih (by omega)) hmem

/-- A model-only move belongs to the moves of any state with its marking. -/
theorem model_move_mem {T : List PNTrans} {tr : PNTrans} (t : Trace) (p : Nat)
    (m : Marking) (htr : tr ∈ T) (hen : enabledIn m tr.pre = true) :
    (((p, fireTrans m tr) : SPState), if tr.label.isSome then 1 else 0) ∈
      spMoves t T (p, m) := by
  apply List.mem_append.2 (Or.inr _)
  simp only [List.mem_filterMap]
  exact ⟨tr, htr, by simp [hen]⟩

/-- Moves in the synchronous product of the empty trace are exactly the
model-only moves. -/
theorem spMoves_nil_inv {T : List PNTrans} {s : SPState} {x : SPState × Nat}
    (hx : x ∈ spMoves [] T s) :
    ∃ tr ∈ T, enabledIn s.2 tr.pre = true ∧
      x = ((s.1, fireTrans s.2 tr), if tr.label.isSome then 1 else 0) := by
  have hx2 : x ∈ T.filterMap fun tr =>
      if enabledIn s.2 tr.pre then
        some ((s.1, fireTrans s.2 tr), if tr.label.isSome then 1 else 0)
      else none := by
    simpa [spMoves] using hx
  rw [List.mem_filterMap] at hx2
  obtain ⟨tr, htr, htx⟩ := hx2
  by_cases hen : enabledIn s.2 tr.pre
  · simp only [hen, if_true] at htx
    exact ⟨tr, htr, hen, (Option.some_injective _ htx).symm⟩
  · simp [hen] at htx

/-- A model-only walk of the empty trace lifts to any position of any trace. -/
theorem walk_lift_model {T : List PNTrans} {m1 : Marking} {s2 : SPState} {c : Nat}
    (h : SPWalk [] T (0, m1) s2 c) :
    ∀ (t : Trace) (p : Nat), s2.1 = 0 ∧ SPWalk t T (p, m1) (p, s2.2) c := by
  induction h with
  | refl => exact fun t p => ⟨rfl, SPWalk.refl _⟩
  | step hw hm ih =>
    intro t p
    obtain ⟨h1, hw2⟩ := ih t p
    obtain ⟨tr, htr, hen, heq⟩ := spMoves_nil_inv hm
    injection heq with heq1 heq2
    subst heq1 heq2
    exact ⟨h1, SPWalk.step hw2 (model_move_mem t p _ htr hen)⟩

/-- A successful per-trace fitness lies between 0 and 1: the returned cost is
optimal, hence at most the worst-case cost of aligning with log-only moves
followed by the model-only replay path. -/
theorem alignTrace_mem_bounds {t : Trace} {T : List PNTrans} {im fm : Marking}
    {f : ℚ} (h : alignTrace t T im fm = some f) : 0 ≤ f ∧ f ≤ 1 := by
  revert h
  unfold alignTrace
  rcases hw : searchCost [] T im fm with _ | w <;>
    rcases hc : searchCost t T im fm with _ | c <;> intro h <;> simp at h
  obtain ⟨cw, hcw, hwalk0⟩ := searchCost_sound hw
  have hlift := (walk_lift_model (by simpa using hwalk0) t t.length).2
  have hlog := walk_log_moves t T (sortMk im) 0 t.length (by omega)
  have hwalk : SPWalk t T (0, sortMk im) (t.length, sortMk fm) (t.length + cw) := by
    have := SPWalk.glue (by simpa using hlog) hlift
    simpa using this
  have hbound : c ≤ t.length + w :=
    le_trans (searchCost_le_walk hc hwalk) (by omega)
  subst h
  rcases Nat.eq_zero_or_pos (t.length + w) with hz | hpos
  · have hc0 : c = 0 := by omega
    have hden : ((t.length : ℚ) + (w : ℚ)) = 0 := by
      have h1 : t.length = 0 := by omega
      have h2 : w = 0 := by omega
      simp [h1, h2]
    rw [hc0, hden]
    norm_num
  · have hden : (0 : ℚ) < (t.length : ℚ) + (w : ℚ) := by
      have : (0 : ℚ) < ((t.length + w : Nat) : ℚ) := by exact_mod_cast hpos
      push_cast at this
      linarith
    have hfrac0 : (0 : ℚ) ≤ (c : ℚ) / ((t.length : ℚ) + (w : ℚ)) :=
      div_nonneg (by positivity) (le_of_lt hden)
    have hfrac1 : (c : ℚ) / ((t.length : ℚ) + (w : ℚ)) ≤ 1 := by
      rw [div_le_one hden]
      have : ((c : ℚ)) ≤ ((t.length + w : Nat) : ℚ) := by exact_mod_cast hbound
      push_cast at this
      linarith
    constructor <;> linarith

/-- Sums of lists of values in the unit interval are between 0 and the length. -/
theorem sum_bounds_unit (l : List ℚ) (h : ∀ x ∈ l, 0 ≤ x ∧ x ≤ 1) :
    0 ≤ l.sum ∧ l.sum ≤ (l.length : ℚ) := by
  induction l with
  | nil => simp
  | cons a l ih =>
    obtain ⟨ha0, ha1⟩ := h a (List.mem_cons_self _ _)
    obtain ⟨hs0, hs1⟩ := ih fun x hx => h x (List.mem_cons_of_mem _ hx)
    simp only [List.sum_cons, List.length_cons]
    push_cast
    constructor <;> linarith

/-- The average fitness returned by `conformance_check` lies between 0 and 1
for every net and log. -/
theorem conformance_avg_bounds (log : Log) (T : List PNTrans) (im fm : Marking) :
    0 ≤ (conformance_check log T im fm).2 ∧ (conformance_check log T im fm).2 ≤ 1 := by
  have hvals : ∀ x ∈ (apply_log log T im fm).filterMap id, 0 ≤ x ∧ x ≤ 1 := by
    intro x hx
    simp only [List.mem_filterMap, id_eq, apply_log, List.mem_map] at hx
    obtain ⟨o, ⟨tr, _, rfl⟩, ho⟩ := hx
    exact alignTrace_mem_bounds ho
  simp only [conformance_check]
  by_cases he : ((apply_log log T im fm).filterMap id).isEmpty
  · simp [he]
  · obtain ⟨h0, h1⟩ := sum_bounds_unit _ hvals
    have hlen : 0 < ((apply_log log T im fm).filterMap id).length := by
      rcases hl : (apply_log log T im fm).filterMap id with _ | ⟨a, l⟩
      · rw [hl] at he; simp at he
      · simp
    have hlenq : (0 : ℚ) < (((apply_log log T im fm).filterMap id).length : ℚ) := by
      exact_mod_cast hlen
    rw [if_neg he]
    constructor
    · exact div_nonneg h0 (le_of_lt hlenq)
    · rw [div_le_one hlenq]
      exact h1

/-! ## Claim C7: fitness bounds -/

/-- C7: for every log, each per-trace fitness value collected by
`conformance_check` on the net produced by the discovery pipeline lies in
the closed interval from 0 to 1, and so does the returned average fitness. -/
theorem conformance_fitness_bounds (log : Log) (f : ℚ)
    (hf : f ∈ (conformance_check log (discover_petri_net log).1
        (discover_petri_net log).2.1 (discover_petri_net log).2.2).1.filterMap id) :
    (0 ≤ f ∧ f ≤ 1) ∧
    (0 ≤ (conformance_check log (discover_petri_net log).1
        (discover_petri_net log).2.1 (discover_petri_net log).2.2).2 ∧
      (conformance_check log (discover_petri_net log).1
        (discover_petri_net log).2.1 (discover_petri_net log).2.2).2 ≤ 1) := by
  refine ⟨?_, conformance_avg_bounds log _ _ _⟩
  have hf2 : f ∈ (apply_log log (discover_petri_net log).1
      (discover_petri_net log).2.1 (discover_petri_net log).2.2).filterMap id := hf
  simp only [List.mem_filterMap, id_eq, apply_log, List.mem_map] at hf2
  obtain ⟨o, ⟨tr, _, rfl⟩, ho⟩ := hf2
  exact alignTrace_mem_bounds ho

/-- Witness for C7 at the one-trace log `[[a]]`, whose single fitness value
is 1. -/
theorem conformance_fitness_bounds_witness :
    ((0 : ℚ) ≤ 1 ∧ (1 : ℚ) ≤ 1) ∧
    (0 ≤ (conformance_check [["a"]] (discover_petri_net [["a"]]).1
        (discover_petri_net [["a"]]).2.1 (discover_petri_net [["a"]]).2.2).2 ∧
      (conformance_check [["a"]] (discover_petri_net [["a"]]).1
        (discover_petri_net [["a"]]).2.1 (discover_petri_net [["a"]]).2.2).2 ≤ 1) := by
  apply conformance_fitness_bounds [["a"]] 1
  have hT : (discover_petri_net [["a"]]).1 = [⟨some "a", [0], [1]⟩] := by decide
  have h1 : searchCost [] [⟨some "a", [0], [1]⟩] [0] [1] = some 1 := by decide
  have h2 : searchCost ["a"] [⟨some "a", [0], [1]⟩] [0] [1] = some 0 := by decide
  have him : (discover_petri_net [["a"]]).2.1 = [0] := rfl
  have hfm : (discover_petri_net [["a"]]).2.2 = [1] := rfl
  rw [show (conformance_check [["a"]] (discover_petri_net [["a"]]).1
      (discover_petri_net [["a"]]).2.1 (discover_petri_net [["a"]]).2.2).1 =
      apply_log [["a"]] (discover_petri_net [["a"]]).1
        (discover_petri_net [["a"]]).2.1 (discover_petri_net [["a"]]).2.2 from rfl,
    hT, him, hfm]
  simp only [apply_log, List.map, alignTrace, h1, h2]
  norm_num

/-! ## Workflow-net structure of the compiled net

Place-to-place reachability through the net's transitions: a place, a
transition consuming it, and a place that transition produces are consecutive
nodes of a path.  A place lies on a path from source to sink when the source
reaches it and it reaches the sink; a transition lies on such a path when the
source reaches one of its input places and one of its output places reaches
the sink. -/

/-- Reachability between places through the arcs of a net. -/
inductive PRch (T : List PNTrans) : Nat → Nat → Prop where
  | refl (p : Nat) : PRch T p p
  | step {p q r : Nat} {tr : PNTrans} :
      PRch T p q → tr ∈ T → q ∈ tr.pre → r ∈ tr.post → PRch T p r

/-- Reachability composes. -/
theorem PRch.comp {T : List PNTrans} {p q r : Nat} (h1 : PRch T p q)
    (h2 : PRch T q r) : PRch T p r := by
  induction h2 with
  | refl => exact h1
  | step hw htr hq hr ih => exact PRch.step ih htr hq hr

/-- Reachability is monotone in the transition list. -/
theorem PRch.mono {T T' : List PNTrans} {p q : Nat} (hsub : T ⊆ T')
    (h : PRch T p q) : PRch T' p q := by
  induction h with
  | refl => exact PRch.refl _
  | step hw htr hq hr ih => exact PRch.step ih (hsub htr) hq hr

/-- Invariant of one compiled block between its entry and exit places, over
the fresh places it allocated: arcs stay inside the block, the entry has an
outgoing arc and the exit an incoming one, every fresh place has both, and
every node of the block lies on a path from the entry to the exit. -/
def BlockOK (ts : List PNTrans) (e x f f2 : Nat) : Prop :=
  f ≤ f2 ∧
  (∀ tr ∈ ts, (∀ p ∈ tr.pre, p = e ∨ (f ≤ p ∧ p < f2)) ∧
    (∀ p ∈ tr.post, p = x ∨ (f ≤ p ∧ p < f2)) ∧ tr.pre ≠ [] ∧ tr.post ≠ []) ∧
  (∃ tr ∈ ts, e ∈ tr.pre) ∧ (∃ tr ∈ ts, x ∈ tr.post) ∧
  (∀ p, f ≤ p → p < f2 → (∃ tr ∈ ts, p ∈ tr.pre) ∧ (∃ tr ∈ ts, p ∈ tr.post)) ∧
  (∀ p, f ≤ p → p < f2 → PRch ts e p ∧ PRch ts p x) ∧
  PRch ts e x ∧
  (∀ tr ∈ ts, (∃ p ∈ tr.pre, PRch ts e p) ∧ (∃ q ∈ tr.post, PRch ts q x))

/-- Invariant of the compiled children of a PARALLEL: each branch runs
between its own pair of fresh places, arcs stay inside the block, branch
entries have outgoing arcs and branch exits incoming ones, and every node
lies on a path between its branch pair. -/
def ParOK (ts : List PNTrans) (pairs : List (Nat × Nat)) (f f2 : Nat) : Prop :=
  f ≤ f2 ∧
  (∀ tr ∈ ts, (∀ p ∈ tr.pre, f ≤ p ∧ p < f2) ∧ (∀ p ∈ tr.post, f ≤ p ∧ p < f2) ∧
    tr.pre ≠ [] ∧ tr.post ≠ []) ∧
  (∀ pr ∈ pairs, (f ≤ pr.1 ∧ pr.1 < f2) ∧ (f ≤ pr.2 ∧ pr.2 < f2) ∧
    (∃ tr ∈ ts, pr.1 ∈ tr.pre) ∧ (∃ tr ∈ ts, pr.2 ∈ tr.post) ∧ PRch ts pr.1 pr.2) ∧
  (∀ p, f ≤ p → p < f2 →
    ((∃ tr ∈ ts, p ∈ tr.pre) ∨ ∃ pr ∈ pairs, p = pr.2) ∧
    ((∃ tr ∈ ts, p ∈ tr.post) ∨ ∃ pr ∈ pairs, p = pr.1)) ∧
  (∀ p, f ≤ p → p < f2 → ∃ pr ∈ pairs, PRch ts pr.1 p ∧ PRch ts p pr.2) ∧
  (∀ tr ∈ ts, ∃ pr ∈ pairs,
    (∃ p ∈ tr.pre, PRch ts pr.1 p) ∧ ∃ q ∈ tr.post, PRch ts q pr.2)

/-- The one-transition block between entry and exit is a valid block. -/
theorem blockOK_leaf (lb : Option String) (e x f : Nat) :
    BlockOK [⟨lb, [e], [x]⟩] e x f f := by
  refine ⟨le_refl f, ?_, ?_, ?_, ?_, ?_, ?_, ?_⟩
  · intro tr htr
    simp only [List.mem_singleton] at htr
    subst htr
    exact ⟨fun p hp => Or.inl (by simpa using hp), fun p hp => Or.inl (by simpa using hp),
      by simp, by simp⟩
  · exact ⟨⟨lb, [e], [x]⟩, by simp, by simp⟩
  · exact ⟨⟨lb, [e], [x]⟩, by simp, by simp⟩
  · intro p h1 h2; omega
  · intro p h1 h2; omega
  · exact @PRch.step [⟨lb, [e], [x]⟩] e e x ⟨lb, [e], [x]⟩ (PRch.refl e)
      (by simp) (by simp) (by simp)
  · intro tr htr
    simp only [List.mem_singleton] at htr
    subst htr
    exact ⟨⟨e, by simp, PRch.refl e⟩, ⟨x, by simp, PRch.refl x⟩⟩

/-- Two blocks between the same entry and exit, with adjacent fresh ranges,
form a block (the XOR composition). -/
theorem blockOK_union {ts1 ts2 : List PNTrans} {e x f f1 f2 : Nat}
    (h1 : BlockOK ts1 e x f f1) (h2 : BlockOK ts2 e x f1 f2) :
    BlockOK (ts1 ++ ts2) e x f f2 := by
  obtain ⟨ha1, hb1, hc1, hd1, he1, hf1, hg1, hh1⟩ := h1
  obtain ⟨ha2, hb2, hc2, hd2, he2, hf2, hg2, hh2⟩ := h2
  have hs1 : ts1 ⊆ ts1 ++ ts2 := List.subset_append_left _ _
  have hs2 : ts2 ⊆ ts1 ++ ts2 := List.subset_append_right _ _
  refine ⟨by omega, ?_, ?_, ?_, ?_, ?_, ?_, ?_⟩
  · intro tr htr
    rcases List.mem_append.1 htr with htr | htr
    · obtain ⟨hp, hq, hn1, hn2⟩ := hb1 tr htr
      exact ⟨fun p h => (hp p h).imp id (fun h3 => by omega),
        fun p h => (hq p h).imp id (fun h3 => by omega), hn1, hn2⟩
    · obtain ⟨hp, hq, hn1, hn2⟩ := hb2 tr htr
      exact ⟨fun p h => (hp p h).imp id (fun h3 => by omega),
        fun p h => (hq p h).imp id (fun h3 => by omega), hn1, hn2⟩
  · obtain ⟨tr, htr, hmem⟩ := hc1
    exact ⟨tr, hs1 htr, hmem⟩
  · obtain ⟨tr, htr, hmem⟩ := hd1
    exact ⟨tr, hs1 htr, hmem⟩
  · intro p hp1 hp2
    by_cases hp3 : p < f1
    · obtain ⟨⟨tr1, ht1, hm1⟩, tr2, ht2, hm2⟩ := he1 p hp1 hp3
      exact ⟨⟨tr1, hs1 ht1, hm1⟩, tr2, hs1 ht2, hm2⟩
    · obtain ⟨⟨tr1, ht1, hm1⟩, tr2, ht2, hm2⟩ := he2 p (by omega) hp2
      exact ⟨⟨tr1, hs2 ht1, hm1⟩, tr2, hs2 ht2, hm2⟩
  · intro p hp1 hp2
    by_cases hp3 : p < f1
    · obtain ⟨hr1, hr2⟩ := hf1 p hp1 hp3
      exact ⟨hr1.mono hs1, hr2.mono hs1⟩
    · obtain ⟨hr1, hr2⟩ := hf2 p (by omega) hp2
      exact ⟨hr1.mono hs2, hr2.mono hs2⟩
  · exact hg1.mono hs1
  · intro tr htr
    rcases List.mem_append.1 htr with htr | htr
    · obtain ⟨⟨p, hp, hr⟩, q, hq, hr2⟩ := hh1 tr htr
      exact ⟨⟨p, hp, hr.mono hs1⟩, q, hq, hr2.mono hs1⟩
    · obtain ⟨⟨p, hp, hr⟩, q, hq, hr2⟩ := hh2 tr htr
      exact ⟨⟨p, hp, hr.mono hs2⟩, q, hq, hr2.mono hs2⟩

/-- Chaining two blocks through the fresh place `f` (the SEQUENCE
composition). -/
theorem blockOK_chain {ts1 ts2 : List PNTrans} {e x f f1 f2 : Nat}
    (h1 : BlockOK ts1 e f (f + 1) f1) (h2 : BlockOK ts2 f x f1 f2) :
    BlockOK (ts1 ++ ts2) e x f f2 := by
  obtain ⟨ha1, hb1, hc1, hd1, he1, hf1, hg1, hh1⟩ := h1
  obtain ⟨ha2, hb2, hc2, hd2, he2, hf2, hg2, hh2⟩ := h2
  have hs1 : ts1 ⊆ ts1 ++ ts2 := List.subset_append_left _ _
  have hs2 : ts2 ⊆ ts1 ++ ts2 := List.subset_append_right _ _
  have hfx : PRch (ts1 ++ ts2) f x := hg2.mono hs2
  have hef : PRch (ts1 ++ ts2) e f := hg1.mono hs1
  refine ⟨by omega, ?_, ?_, ?_, ?_, ?_, ?_, ?_⟩
  · intro tr htr
    rcases List.mem_append.1 htr with htr | htr
    · obtain ⟨hp, hq, hn1, hn2⟩ := hb1 tr htr
      refine ⟨fun p h => (hp p h).imp id fun h3 => by omega, ?_, hn1, hn2⟩
      intro p h
      rcases hq p h with rfl | h3
      · exact Or.inr (by omega)
      · exact Or.inr (by omega)
    · obtain ⟨hp, hq, hn1, hn2⟩ := hb2 tr htr
      refine ⟨?_, fun p h => (hq p h).imp id fun h3 => by omega, hn1, hn2⟩
      intro p h
      rcases hp p h with rfl | h3
      · exact Or.inr (by omega)
      · exact Or.inr (by omega)
  · obtain ⟨tr, htr, hmem⟩ := hc1
    exact ⟨tr, hs1 htr, hmem⟩
  · obtain ⟨tr, htr, hmem⟩ := hd2
    exact ⟨tr, hs2 htr, hmem⟩
  · intro p hp1 hp2
    by_cases hpf : p = f
    · subst hpf
      obtain ⟨tr2, ht2, hm2⟩ := hc2
      obtain ⟨tr1, ht1, hm1⟩ := hd1
      exact ⟨⟨tr2, hs2 ht2, hm2⟩, tr1, hs1 ht1, hm1⟩
    · by_cases hp3 : p < f1
      · obtain ⟨⟨tr1, ht1, hm1⟩, tr2, ht2, hm2⟩ := he1 p (by omega) hp3
        exact ⟨⟨tr1, hs1 ht1, hm1⟩, tr2, hs1 ht2, hm2⟩
      · obtain ⟨⟨tr1, ht1, hm1⟩, tr2, ht2, hm2⟩ := he2 p (by omega) hp2
        exact ⟨⟨tr1, hs2 ht1, hm1⟩, tr2, hs2 ht2, hm2⟩
  · intro p hp1 hp2
    by_cases hpf : p = f
    · subst hpf
      exact ⟨hef, hfx⟩
    · by_cases hp3 : p < f1
      · obtain ⟨hr1, hr2⟩ := hf1 p (by omega) hp3
        exact ⟨hr1.mono hs1, PRch.comp (hr2.mono hs1) hfx⟩
      · obtain ⟨hr1, hr2⟩ := hf2 p (by omega) hp2
        exact ⟨PRch.comp hef (hr1.mono hs2), hr2.mono hs2⟩
  · exact PRch.comp hef hfx
  · intro tr htr
    rcases List.mem_append.1 htr with htr | htr
    · obtain ⟨⟨p, hp, hr⟩, q, hq, hr2⟩ := hh1 tr htr
      exact ⟨⟨p, hp, hr.mono hs1⟩, q, hq, PRch.comp (hr2.mono hs1) hfx⟩
    · obtain ⟨⟨p, hp, hr⟩, q, hq, hr2⟩ := hh2 tr htr
      exact ⟨⟨p, hp, PRch.comp hef (hr.mono hs2)⟩, q, hq, hr2.mono hs2⟩

/-- The LOOP composition: body from entry to the fresh place `f`, redo from
`f` back to `f`, and a silent exit from `f`. -/
theorem blockOK_loop {ts1 ts2 : List PNTrans} {e x f f1 f2 : Nat}
    (h1 : BlockOK ts1 e f (f + 1) f1) (h2 : BlockOK ts2 f f f1 f2) :
    BlockOK (⟨none, [f], [x]⟩ :: ts1 ++ ts2) e x f f2 := by
  obtain ⟨ha1, hb1, hc1, hd1, he1, hf1, hg1, hh1⟩ := h1
  obtain ⟨ha2, hb2, hc2, hd2, he2, hf2, hg2, hh2⟩ := h2
  set τtr : PNTrans := ⟨none, [f], [x]⟩ with hτ
  have hsτ : τtr ∈ τtr :: ts1 ++ ts2 := List.mem_cons_self _ _
  have hs1 : ts1 ⊆ τtr :: ts1 ++ ts2 :=
    fun a ha => List.mem_cons_of_mem _ (List.mem_append_left _ ha)
  have hs2 : ts2 ⊆ τtr :: ts1 ++ ts2 :=
    fun a ha => List.mem_cons_of_mem _ (List.mem_append_right _ ha)
  have hef : PRch (τtr :: ts1 ++ ts2) e f := hg1.mono hs1
  have hfx : PRch (τtr :: ts1 ++ ts2) f x :=
    PRch.step (PRch.refl f) hsτ (by simp [hτ]) (by simp [hτ])
  refine ⟨by omega, ?_, ?_, ?_, ?_, ?_, ?_, ?_⟩
  · intro tr htr
    rcases List.mem_cons.1 htr with rfl | htr
    · exact ⟨fun p hp => Or.inr (by simp [hτ] at hp; omega),
        fun p hp => Or.inl (by simpa [hτ] using hp), by simp [hτ], by simp [hτ]⟩
    rcases List.mem_append.1 htr with htr | htr
    · obtain ⟨hp, hq, hn1, hn2⟩ := hb1 tr htr
      refine ⟨fun p h => (hp p h).imp id fun h3 => by omega, ?_, hn1, hn2⟩
      intro p h
      rcases hq p h with rfl | h3
      · exact Or.inr (by omega)
      · exact Or.inr (by omega)
    · obtain ⟨hp, hq, hn1, hn2⟩ := hb2 tr htr
      refine ⟨?_, ?_, hn1, hn2⟩
      · intro p h
        rcases hp p h with rfl | h3
        · exact Or.inr (by omega)
        · exact Or.inr (by omega)
      · intro p h
        rcases hq p h with rfl | h3
        · exact Or.inr (by omega)
        · exact Or.inr (by omega)
  · obtain ⟨tr, htr, hmem⟩ := hc1
    exact ⟨tr, hs1 htr, hmem⟩
  · exact ⟨τtr, hsτ, by simp [hτ]⟩
  · intro p hp1 hp2
    by_cases hpf : p = f
    · subst hpf
      obtain ⟨tr1, ht1, hm1⟩ := hd1
      exact ⟨⟨τtr, hsτ, by simp [hτ]⟩, tr1, hs1 ht1, hm1⟩
    · by_cases hp3 : p < f1
      · obtain ⟨⟨tr1, ht1, hm1⟩, tr2, ht2, hm2⟩ := he1 p (by omega) hp3
        exact ⟨⟨tr1, hs1 ht1, hm1⟩, tr2, hs1 ht2, hm2⟩
      · obtain ⟨⟨tr1, ht1, hm1⟩, tr2, ht2, hm2⟩ := he2 p (by omega) hp2
        exact ⟨⟨tr1, hs2 ht1, hm1⟩, tr2, hs2 ht2, hm2⟩
  · intro p hp1 hp2
    by_cases hpf : p = f
    · subst hpf
      exact ⟨hef, hfx⟩
    · by_cases hp3 : p < f1
      · obtain ⟨hr1, hr2⟩ := hf1 p (by omega) hp3
        exact ⟨hr1.mono hs1, PRch.comp (hr2.mono hs1) hfx⟩
      · obtain ⟨hr1, hr2⟩ := hf2 p (by omega) hp2
        exact ⟨PRch.comp hef (hr1.mono hs2), PRch.comp (hr2.mono hs2) hfx⟩
  · exact PRch.comp hef hfx
  · intro tr htr
    rcases List.mem_cons.1 htr with rfl | htr
    · exact ⟨⟨f, by simp [hτ], hef⟩, x, by simp [hτ], PRch.refl x⟩
    rcases List.mem_append.1 htr with htr | htr
    · obtain ⟨⟨p, hp, hr⟩, q, hq, hr2⟩ := hh1 tr htr
      exact ⟨⟨p, hp, hr.mono hs1⟩, q, hq, PRch.comp (hr2.mono hs1) hfx⟩
    · obtain ⟨⟨p, hp, hr⟩, q, hq, hr2⟩ := hh2 tr htr
      exact ⟨⟨p, hp, PRch.comp hef (hr.mono hs2)⟩, q, hq,
        PRch.comp (hr2.mono hs2) hfx⟩

/-- The empty PARALLEL children block. -/
theorem parOK_nil (f : Nat) : ParOK [] [] f f := by
  refine ⟨le_refl f, by simp, by simp, ?_, ?_, by simp⟩
  · intro p h1 h2; omega
  · intro p h1 h2; omega

/-- Adding one PARALLEL child on the fresh branch pair `(f, f+1)`. -/
theorem parOK_cons {ts1 ts2 : List PNTrans} {pairs : List (Nat × Nat)}
    {f f1 f2 : Nat} (h1 : BlockOK ts1 f (f + 1) (f + 2) f1)
    (h2 : ParOK ts2 pairs f1 f2) :
    ParOK (ts1 ++ ts2) ((f, f + 1) :: pairs) f f2 := by
  obtain ⟨ha1, hb1, hc1, hd1, he1, hf1, hg1, hh1⟩ := h1
  obtain ⟨ha2, hb2, hc2, hd2, he2, hf2⟩ := h2
  have hs1 : ts1 ⊆ ts1 ++ ts2 := List.subset_append_left _ _
  have hs2 : ts2 ⊆ ts1 ++ ts2 := List.subset_append_right _ _
  refine ⟨by omega, ?_, ?_, ?_, ?_, ?_⟩
  · intro tr htr
    rcases List.mem_append.1 htr with htr | htr
    · obtain ⟨hp, hq, hn1, hn2⟩ := hb1 tr htr
      refine ⟨?_, ?_, hn1, hn2⟩
      · intro p h
        rcases hp p h with rfl | h3 <;> omega
      · intro p h
        rcases hq p h with rfl | h3 <;> omega
    · obtain ⟨hp, hq, hn1, hn2⟩ := hb2 tr htr
      exact ⟨fun p h => by have := hp p h; omega,
        fun p h => by have := hq p h; omega, hn1, hn2⟩
  · intro pr hpr
    rcases List.mem_cons.1 hpr with rfl | hpr
    · obtain ⟨tr1, ht1, hm1⟩ := hc1
      obtain ⟨tr2, ht2, hm2⟩ := hd1
      exact ⟨⟨by omega, by omega⟩, ⟨by omega, by omega⟩, ⟨tr1, hs1 ht1, hm1⟩,
        ⟨tr2, hs1 ht2, hm2⟩, hg1.mono hs1⟩
    · obtain ⟨hr1, hr2, ⟨tr1, ht1, hm1⟩, ⟨tr2, ht2, hm2⟩, hr⟩ := hc2 pr hpr
      exact ⟨⟨by omega, by omega⟩, ⟨by omega, by omega⟩, ⟨tr1, hs2 ht1, hm1⟩,
        ⟨tr2, hs2 ht2, hm2⟩, hr.mono hs2⟩
  · intro p hp1 hp2
    by_cases hpf : p = f
    · obtain ⟨tr1, ht1, hm1⟩ := hc1
      exact ⟨Or.inl ⟨tr1, hs1 ht1, by rw [hpf]; exact hm1⟩,
        Or.inr ⟨(f, f + 1), List.mem_cons_self _ _, hpf⟩⟩
    · by_cases hpf1 : p = f + 1
      · obtain ⟨tr1, ht1, hm1⟩ := hd1
        exact ⟨Or.inr ⟨(f, f + 1), List.mem_cons_self _ _, hpf1⟩,
          Or.inl ⟨tr1, hs1 ht1, by rw [hpf1]; exact hm1⟩⟩
      · by_cases hp3 : p < f1
        · obtain ⟨⟨tr1, ht1, hm1⟩, tr2, ht2, hm2⟩ := he1 p (by omega) hp3
          exact ⟨Or.inl ⟨tr1, hs1 ht1, hm1⟩, Or.inl ⟨tr2, hs1 ht2, hm2⟩⟩
        · obtain ⟨hcov1, hcov2⟩ := hd2 p (by omega) hp2
          constructor
          · rcases hcov1 with ⟨tr, ht, hm⟩ | ⟨pr, hpr, hm⟩
            · exact Or.inl ⟨tr, hs2 ht, hm⟩
            · exact Or.inr ⟨pr, List.mem_cons_of_mem _ hpr, hm⟩
          · rcases hcov2 with ⟨tr, ht, hm⟩ | ⟨pr, hpr, hm⟩
            · exact Or.inl ⟨tr, hs2 ht, hm⟩
            · exact Or.inr ⟨pr, List.mem_cons_of_mem _ hpr, hm⟩
  · intro p hp1 hp2
    by_cases hpf : p = f
    · exact ⟨(f, f + 1), List.mem_cons_self _ _,
        by rw [hpf]; exact PRch.refl f, by rw [hpf]; exact hg1.mono hs1⟩
    · by_cases hpf1 : p = f + 1
      · exact ⟨(f, f + 1), List.mem_cons_self _ _,
          by rw [hpf1]; exact hg1.mono hs1, by rw [hpf1]; exact PRch.refl (f + 1)⟩
      · by_cases hp3 : p < f1
        · obtain ⟨hr1, hr2⟩ := hf1 p (by omega) hp3
          exact ⟨(f, f + 1), List.mem_cons_self _ _, hr1.mono hs1, hr2.mono hs1⟩
        · obtain ⟨pr, hpr, hr1, hr2⟩ := he2 p (by omega) hp2
          exact ⟨pr, List.mem_cons_of_mem _ hpr, hr1.mono hs2, hr2.mono hs2⟩
  · intro tr htr
    rcases List.mem_append.1 htr with htr | htr
    · obtain ⟨⟨p, hp, hr⟩, q, hq, hr2⟩ := hh1 tr htr
      exact ⟨(f, f + 1), List.mem_cons_self _ _, ⟨p, hp, hr.mono hs1⟩,
        q, hq, hr2.mono hs1⟩
    · obtain ⟨pr, hpr, ⟨p, hp, hr⟩, q, hq, hr2⟩ := hf2 tr htr
      exact ⟨pr, List.mem_cons_of_mem _ hpr, ⟨p, hp, hr.mono hs2⟩,
        q, hq, hr2.mono hs2⟩

/-- The PARALLEL composition: a silent split into the branch entries and a
silent join of the branch exits. -/
theorem blockOK_par {ts : List PNTrans} {pr0 : Nat × Nat}
    {rest : List (Nat × Nat)} {e x f f2 : Nat}
    (h : ParOK ts (pr0 :: rest) f f2) :
    BlockOK (⟨none, [e], ((pr0 :: rest).map Prod.fst)⟩ ::
      ⟨none, ((pr0 :: rest).map Prod.snd), [x]⟩ :: ts) e x f f2 := by
  obtain ⟨ha, hb, hc, hd, he, hf⟩ := h
  set pairs := pr0 :: rest with hpairs
  set split : PNTrans := ⟨none, [e], pairs.map Prod.fst⟩ with hsplit
  set join : PNTrans := ⟨none, pairs.map Prod.snd, [x]⟩ with hjoin
  have hmsplit : split ∈ split :: join :: ts := List.mem_cons_self _ _
  have hmjoin : join ∈ split :: join :: ts :=
    List.mem_cons_of_mem _ (List.mem_cons_self _ _)
  have hsts : ts ⊆ split :: join :: ts :=
    fun a ha2 => List.mem_cons_of_mem _ (List.mem_cons_of_mem _ ha2)
  have hentry : ∀ pr ∈ pairs, PRch (split :: join :: ts) e pr.1 := by
    intro pr hpr
    exact PRch.step (PRch.refl e) hmsplit (by simp [hsplit])
      (List.mem_map.2 ⟨pr, hpr, rfl⟩)
  have hexit : ∀ pr ∈ pairs, PRch (split :: join :: ts) pr.2 x := by
    intro pr hpr
    exact PRch.step (PRch.refl pr.2) hmjoin
      (List.mem_map.2 ⟨pr, hpr, rfl⟩) (by simp [hjoin])
  have hbranch : ∀ pr ∈ pairs, PRch (split :: join :: ts) pr.1 pr.2 :=
    fun pr hpr => ((hc pr hpr).2.2.2.2).mono hsts
  refine ⟨by omega, ?_, ?_, ?_, ?_, ?_, ?_, ?_⟩
  · intro tr htr
    rcases List.mem_cons.1 htr with rfl | htr
    · refine ⟨fun p hp => Or.inl (by simpa [hsplit] using hp), ?_, by simp [hsplit],
        by simp [hsplit, hpairs]⟩
      intro p hp
      simp only [hsplit, List.mem_map] at hp
      obtain ⟨pr, hpr, rfl⟩ := hp
      exact Or.inr (hc pr hpr).1
    rcases List.mem_cons.1 htr with rfl | htr
    · refine ⟨?_, fun p hp => Or.inl (by simpa [hjoin] using hp),
        by simp [hjoin, hpairs], by simp [hjoin]⟩
      intro p hp
      simp only [hjoin, List.mem_map] at hp
      obtain ⟨pr, hpr, rfl⟩ := hp
      exact Or.inr (hc pr hpr).2.1
    · obtain ⟨hp, hq, hn1, hn2⟩ := hb tr htr
      exact ⟨fun p h => Or.inr (hp p h), fun p h => Or.inr (hq p h), hn1, hn2⟩
  · exact ⟨split, hmsplit, by simp [hsplit]⟩
  · exact ⟨join, hmjoin, by simp [hjoin]⟩
  · intro p hp1 hp2
    obtain ⟨hcov1, hcov2⟩ := hd p hp1 hp2
    constructor
    · rcases hcov1 with ⟨tr, ht, hm⟩ | ⟨pr, hpr, rfl⟩
      · exact ⟨tr, hsts ht, hm⟩
      · exact ⟨join, hmjoin, List.mem_map.2 ⟨pr, hpr, rfl⟩⟩
    · rcases hcov2 with ⟨tr, ht, hm⟩ | ⟨pr, hpr, rfl⟩
      · exact ⟨tr, hsts ht, hm⟩
      · exact ⟨split, hmsplit, List.mem_map.2 ⟨pr, hpr, rfl⟩⟩
  · intro p hp1 hp2
    obtain ⟨pr, hpr, hr1, hr2⟩ := he p hp1 hp2
    exact ⟨PRch.comp (hentry pr hpr) (hr1.mono hsts),
      PRch.comp (hr2.mono hsts) (hexit pr hpr)⟩
  · exact PRch.comp (hentry pr0 (List.mem_cons_self _ _))
      (PRch.comp (hbranch pr0 (List.mem_cons_self _ _))
        (hexit pr0 (List.mem_cons_self _ _)))
  · intro tr htr
    rcases List.mem_cons.1 htr with rfl | htr
    · refine ⟨⟨e, by simp [hsplit], PRch.refl e⟩, pr0.1,
        List.mem_map.2 ⟨pr0, List.mem_cons_self _ _, rfl⟩, ?_⟩
      exact PRch.comp (hbranch pr0 (List.mem_cons_self _ _))
        (hexit pr0 (List.mem_cons_self _ _))
    rcases List.mem_cons.1 htr with rfl | htr
    · refine ⟨⟨pr0.2, List.mem_map.2 ⟨pr0, List.mem_cons_self _ _, rfl⟩, ?_⟩,
        x, by simp [hjoin], PRch.refl x⟩
      exact PRch.comp (hentry pr0 (List.mem_cons_self _ _))
        (hbranch pr0 (List.mem_cons_self _ _))
    · obtain ⟨pr, hpr, ⟨p, hp, hr⟩, q, hq, hr2⟩ := hf tr htr
      exact ⟨⟨p, hp, PRch.comp (hentry pr hpr) (hr.mono hsts)⟩,
        q, hq, PRch.comp (hr2.mono hsts) (hexit pr hpr)⟩

/-- Every compiled block satisfies the block invariant. -/
theorem compile_block_master : ∀ n : Nat,
    (∀ t : PTree, sizeOf t ≤ n → ∀ e x f,
      BlockOK (compileAux t e x f).1 e x f (compileAux t e x f).2) ∧
    (∀ cs : List PTree, sizeOf cs ≤ n → ∀ e x f,
      BlockOK (compileSeqList cs e x f).1 e x f (compileSeqList cs e x f).2 ∧
      BlockOK (compileXorList cs e x f).1 e x f (compileXorList cs e x f).2) ∧
    (∀ cs : List PTree, sizeOf cs ≤ n → ∀ f,
      ParOK (compileParList cs f).1 (compileParList cs f).2.1 f
        (compileParList cs f).2.2) := by
  intro n
  induction n using Nat.strong_induction_on with
  | _ n ih =>
    refine ⟨?_, ?_, ?_⟩
    · intro t ht e x f
      match t with
      | .tau => exact blockOK_leaf none e x f
      | .act a => exact blockOK_leaf (some a) e x f
      | .seq cs =>
        have hlt : sizeOf cs < n := by
          have := ht; simp at this; omega
        exact ((ih (sizeOf cs) hlt).2.1 cs (le_refl _) e x f).1
      | .xor cs =>
        have hlt : sizeOf cs < n := by
          have := ht; simp at this; omega
        exact ((ih (sizeOf cs) hlt).2.1 cs (le_refl _) e x f).2
      | .par cs =>
        have hlt : sizeOf cs < n := by
          have := ht; simp at this; omega
        match cs with
        | [] => exact blockOK_leaf none e x f
        | c :: cs' =>
          have h3 := (ih (sizeOf (c :: cs')) hlt).2.2 (c :: cs') (le_refl _) f
          exact blockOK_par h3
      | .loop b rd =>
        have hb : sizeOf b < n := by
          have := ht; simp at this; omega
        have hr : sizeOf rd < n := by
          have := ht; simp at this; omega
        have h1 := (ih (sizeOf b) hb).1 b (le_refl _) e f (f + 1)
        have h2 := (ih (sizeOf rd) hr).1 rd (le_refl _) f f
          (compileAux b e f (f + 1)).2
        exact blockOK_loop h1 h2
    · intro cs hcs e x f
      match cs with
      | [] => exact ⟨blockOK_leaf none e x f, blockOK_leaf none e x f⟩
      | [c] =>
        have hc : sizeOf c < n := by
          have := hcs; simp at this; omega
        exact ⟨(ih (sizeOf c) hc).1 c (le_refl _) e x f,
          (ih (sizeOf c) hc).1 c (le_refl _) e x f⟩
      | c :: c2 :: cs' =>
        have hc : sizeOf c < n := by
          have := hcs; simp at this; omega
        have hrest : sizeOf (c2 :: cs') < n := by
          have := hcs; simp at this; simp; omega
        constructor
        · have h1 := (ih (sizeOf c) hc).1 c (le_refl _) e f (f + 1)
          have h2 := ((ih (sizeOf (c2 :: cs')) hrest).2.1 (c2 :: cs') (le_refl _)
            f x (compileAux c e f (f + 1)).2).1
          exact blockOK_chain h1 h2
        · have h1 := (ih (sizeOf c) hc).1 c (le_refl _) e x f
          have h2 := ((ih (sizeOf (c2 :: cs')) hrest).2.1 (c2 :: cs') (le_refl _)
            e x (compileAux c e x f).2).2
          exact blockOK_union h1 h2
    · intro cs hcs f
      match cs with
      | [] => exact parOK_nil f
      | c :: cs' =>
        have hc : sizeOf c < n := by
          have := hcs; simp at this; omega
        have hrest : sizeOf cs' < n := by
          have := hcs; simp at this; omega
        have h1 := (ih (sizeOf c) hc).1 c (le_refl _) f (f + 1) (f + 2)
        have h2 := (ih (sizeOf cs') hrest).2.2 cs' (le_refl _)
          (compileAux c f (f + 1) (f + 2)).2
        exact parOK_cons h1 h2

/-- Places of a net: the reserved source and sink, and every place mentioned
by an arc. -/
theorem mem_placesOf {T : List PNTrans} {p : Nat} :
    p ∈ placesOf T ↔ p = 0 ∨ p = 1 ∨ ∃ tr ∈ T, p ∈ tr.pre ∨ p ∈ tr.post := by
  simp [placesOf, List.mem_dedup, List.mem_flatMap]

/-! ## Claim C5: the discovered net is a workflow net -/

/-- C5: for every event log, the net returned by `discover_petri_net` is a
workflow net: place 0 is the only place with no incoming arc (the unique
source), place 1 is the only place with no outgoing arc (the unique sink),
every place lies on a path from source to sink and every transition has an
input place reached from the source and an output place reaching the sink,
and the initial and final markings put exactly one token on the source and
the sink respectively. -/
theorem discover_workflow_net (log : Log) :
    (∀ p ∈ placesOf (discover_petri_net log).1,
      ((¬ ∃ tr ∈ (discover_petri_net log).1, p ∈ tr.post) ↔ p = 0)) ∧
    (∀ p ∈ placesOf (discover_petri_net log).1,
      ((¬ ∃ tr ∈ (discover_petri_net log).1, p ∈ tr.pre) ↔ p = 1)) ∧
    (∀ p ∈ placesOf (discover_petri_net log).1,
      PRch (discover_petri_net log).1 0 p ∧ PRch (discover_petri_net log).1 p 1) ∧
    (∀ tr ∈ (discover_petri_net log).1,
      (∃ p ∈ tr.pre, PRch (discover_petri_net log).1 0 p) ∧
      ∃ q ∈ tr.post, PRch (discover_petri_net log).1 q 1) ∧
    (discover_petri_net log).2.1 = [0] ∧ (discover_petri_net log).2.2 = [1] := by
  have hblock := (compile_block_master
    (sizeOf (mineTree (acts log).length log))).1
    (mineTree (acts log).length log) (le_refl _) 0 1 2
  have hTd : (discover_petri_net log).1 =
      (compileAux (mineTree (acts log).length log) 0 1 2).1 := rfl
  rw [hTd]
  obtain ⟨ha, hb, hc, hd, he, hf, hg, hh⟩ := hblock
  set T := (compileAux (mineTree (acts log).length log) 0 1 2).1 with hT
  set f2 := (compileAux (mineTree (acts log).length log) 0 1 2).2 with hf2
  refine ⟨?_, ?_, ?_, hh, rfl, rfl⟩
  · intro p hp
    constructor
    · intro hno
      by_contra hp0
      rcases mem_placesOf.1 hp with rfl | rfl | ⟨tr, htr, hm | hm⟩
      · exact hp0 rfl
      · exact hno hd
      · rcases (hb tr htr).1 p hm with rfl | hrange
        · exact hp0 rfl
        · exact hno ⟨(he p hrange.1 hrange.2).2.choose,
            ((he p hrange.1 hrange.2).2.choose_spec).1,
            ((he p hrange.1 hrange.2).2.choose_spec).2⟩
      · exact hno ⟨tr, htr, hm⟩
    · rintro rfl ⟨tr, htr, hm⟩
      rcases (hb tr htr).2.1 0 hm with h | h
      · omega
      · omega
  · intro p hp
    constructor
    · intro hno
      by_contra hp1
      rcases mem_placesOf.1 hp with rfl | rfl | ⟨tr, htr, hm | hm⟩
      · exact hno hc
      · exact hp1 rfl
      · exact hno ⟨tr, htr, hm⟩
      · rcases (hb tr htr).2.1 p hm with rfl | hrange
        · exact hp1 rfl
        · exact hno ⟨(he p hrange.1 hrange.2).1.choose,
            ((he p hrange.1 hrange.2).1.choose_spec).1,
            ((he p hrange.1 hrange.2).1.choose_spec).2⟩
    · rintro rfl ⟨tr, htr, hm⟩
      rcases (hb tr htr).1 1 hm with h | h
      · omega
      · omega
  · intro p hp
    rcases mem_placesOf.1 hp with rfl | rfl | ⟨tr, htr, hm | hm⟩
    · exact ⟨PRch.refl 0, hg⟩
    · exact ⟨hg, PRch.refl 1⟩
    · rcases (hb tr htr).1 p hm with rfl | hrange
      · exact ⟨PRch.refl 0, hg⟩
      · exact hf p hrange.1 hrange.2
    · rcases (hb tr htr).2.1 p hm with rfl | hrange
      · exact ⟨hg, PRch.refl 1⟩
      · exact hf p hrange.1 hrange.2

/-! ## Claim C4: discovery soundness of visible labels -/

/-- C4: for every event log, the visible (non-silent) transition labels of
the Petri net returned by `discover_petri_net` are exactly the activities of
the log: no activity is missing and no extra visible label is introduced. -/
theorem discovery_soundness_labels (log : Log) (a : String) :
    a ∈ netVisibleLabels (discover_petri_net log).1 ↔ a ∈ acts log := by
  have h1 := (compile_labels_master (sizeOf (mineTree (acts log).length log))).1
    (mineTree (acts log).length log) (le_refl _) 0 1 2
  rw [show (discover_petri_net log).1 =
    (compileAux (mineTree (acts log).length log) 0 1 2).1 from rfl, h1]
  exact mineTree_labels _ log a

/-! ## The spec's concrete scenarios (section 8)

The loop-free scenarios of the spec hold in this model: the two-activity
sequence log, the optional-step log and the fully interleaved parallel log
are each replayed by their own discovered net with fitness 1.  This isolates
the replay failure below to the loop translation rule. -/

/-- Scenario 1: the log `[[Login, Logout]]` is discovered as a sequence and
replays with fitness 1. -/
theorem scenario_sequence_replay :
    (conformance_check [["Login", "Logout"]]
        (discover_petri_net [["Login", "Logout"]]).1
        (discover_petri_net [["Login", "Logout"]]).2.1
        (discover_petri_net [["Login", "Logout"]]).2.2).2 = 1 := by
  have hT : (discover_petri_net [["Login", "Logout"]]).1 =
      [⟨some "Login", [0], [2]⟩, ⟨some "Logout", [2], [1]⟩] := by decide
  have hw : searchCost [] [⟨some "Login", [0], [2]⟩, ⟨some "Logout", [2], [1]⟩]
      [0] [1] = some 2 := by decide
  have hc : searchCost ["Login", "Logout"]
      [⟨some "Login", [0], [2]⟩, ⟨some "Logout", [2], [1]⟩] [0] [1] = some 0 := by
    decide
  rw [show (discover_petri_net [["Login", "Logout"]]).2.1 = [0] from rfl,
    show (discover_petri_net [["Login", "Logout"]]).2.2 = [1] from rfl, hT]
  simp only [conformance_check, apply_log, List.map, alignTrace, hw, hc]
  norm_num [List.filterMap]

/-- Scenario 2: the log with an optional View_Content step replays with
average fitness 1 for both traces. -/
theorem scenario_optional_step_replay :
    (conformance_check [["Login", "View_Content", "Logout"], ["Login", "Logout"]]
        (discover_petri_net [["Login", "View_Content", "Logout"], ["Login", "Logout"]]).1
        (discover_petri_net [["Login", "View_Content", "Logout"], ["Login", "Logout"]]).2.1
        (discover_petri_net [["Login", "View_Content", "Logout"], ["Login", "Logout"]]).2.2).2
      = 1 := by
  have hT : (discover_petri_net
      [["Login", "View_Content", "Logout"], ["Login", "Logout"]]).1 =
      [⟨some "Login", [0], [2]⟩, ⟨none, [4], [3]⟩, ⟨none, [2], [4]⟩,
        ⟨some "View_Content", [4], [4]⟩, ⟨some "Logout", [3], [1]⟩] := by decide
  have hw : searchCost []
      [⟨some "Login", [0], [2]⟩, ⟨none, [4], [3]⟩, ⟨none, [2], [4]⟩,
        ⟨some "View_Content", [4], [4]⟩, ⟨some "Logout", [3], [1]⟩]
      [0] [1] = some 2 := by decide
  have hc1 : searchCost ["Login", "View_Content", "Logout"]
      [⟨some "Login", [0], [2]⟩, ⟨none, [4], [3]⟩, ⟨none, [2], [4]⟩,
        ⟨some "View_Content", [4], [4]⟩, ⟨some "Logout", [3], [1]⟩]
      [0] [1] = some 0 := by decide
  have hc2 : searchCost ["Login", "Logout"]
      [⟨some "Login", [0], [2]⟩, ⟨none, [4], [3]⟩, ⟨none, [2], [4]⟩,
        ⟨some "View_Content", [4], [4]⟩, ⟨some "Logout", [3], [1]⟩]
      [0] [1] = some 0 := by decide
  rw [show (discover_petri_net
      [["Login", "View_Content", "Logout"], ["Login", "Logout"]]).2.1 = [0] from rfl,
    show (discover_petri_net
      [["Login", "View_Content", "Logout"], ["Login", "Logout"]]).2.2 = [1] from rfl, hT]
  simp only [conformance_check, apply_log, List.map, alignTrace, hw, hc1, hc2]
  norm_num [List.filterMap]

/-- Scenario 5: two fully interleaved activities are discovered as a
parallel block and replay with average fitness 1. -/
theorem scenario_parallel_replay :
    (conformance_check [["a", "b"], ["b", "a"]]
        (discover_petri_net [["a", "b"], ["b", "a"]]).1
        (discover_petri_net [["a", "b"], ["b", "a"]]).2.1
        (discover_petri_net [["a", "b"], ["b", "a"]]).2.2).2 = 1 := by
  have hT : (discover_petri_net [["a", "b"], ["b", "a"]]).1 =
      [⟨none, [0], [2, 4]⟩, ⟨none, [3, 5], [1]⟩, ⟨some "b", [2], [3]⟩,
        ⟨some "a", [4], [5]⟩] := by decide
  have hw : searchCost []
      [⟨none, [0], [2, 4]⟩, ⟨none, [3, 5], [1]⟩, ⟨some "b", [2], [3]⟩,
        ⟨some "a", [4], [5]⟩] [0] [1] = some 2 := by decide
  have hc1 : searchCost ["a", "b"]
      [⟨none, [0], [2, 4]⟩, ⟨none, [3, 5], [1]⟩, ⟨some "b", [2], [3]⟩,
        ⟨some "a", [4], [5]⟩] [0] [1] = some 0 := by decide
  have hc2 : searchCost ["b", "a"]
      [⟨none, [0], [2, 4]⟩, ⟨none, [3, 5], [1]⟩, ⟨some "b", [2], [3]⟩,
        ⟨some "a", [4], [5]⟩] [0] [1] = some 0 := by decide
  rw [show (discover_petri_net [["a", "b"], ["b", "a"]]).2.1 = [0] from rfl,
    show (discover_petri_net [["a", "b"], ["b", "a"]]).2.2 = [1] from rfl, hT]
  simp only [conformance_check, apply_log, List.map, alignTrace, hw, hc1, hc2]
  norm_num [List.filterMap]

/-- Witness for C5 at the one-trace log `[[a]]`: the source has no incoming
arc, it reaches the sink, and the initial marking is one token on it. -/
theorem discover_workflow_net_witness :
    (¬ ∃ tr ∈ (discover_petri_net [["a"]]).1, (0 : Nat) ∈ tr.post) ∧
    PRch (discover_petri_net [["a"]]).1 0 1 ∧
    (discover_petri_net [["a"]]).2.1 = [0] :=
  ⟨((discover_workflow_net [["a"]]).1 0 (by decide)).2 rfl,
    ((discover_workflow_net [["a"]]).2.2.1 1 (by decide)).1,
    (discover_workflow_net [["a"]]).2.2.2.2.1⟩

/-- Witness for C4 at the one-trace log `[[a]]`. -/
theorem discovery_soundness_labels_witness :
    "a" ∈ netVisibleLabels (discover_petri_net [["a"]]).1 ↔ "a" ∈ acts [["a"]] :=
  discovery_soundness_labels [["a"]] "a"

/-! ## Claim C1: the replay guarantee fails at a loop-cut log

On the log `[[a,b,a],[a]]` discovery finds a loop cut with body `{a}` and
redo `{b}`, giving the tree LOOP(a, b).  The spec's loop translation rule
(section 4.3) sends the redo part from the intermediate place back to the
intermediate place, so the compiled net replays the body only once and its
visible language is `a b*`.  The trace `[a,b,a]` therefore aligns with cost
1 and fitness 3/4, not 1, contradicting the replay guarantee the spec
itself states (section 8) and the decomposition its own loop log-split
(section 4.2) presupposes. -/

/-- C1 (evaluation at the failing input): on the log `[[a,b,a],[a]]` the
discovered net yields per-trace fitness values 3/4 and 1 and average 7/8,
so the first trace of the log does not reach fitness 1. -/
theorem replay_guarantee_fails_on_loop_log :
    (conformance_check [["a", "b", "a"], ["a"]]
        (discover_petri_net [["a", "b", "a"], ["a"]]).1
        (discover_petri_net [["a", "b", "a"], ["a"]]).2.1
        (discover_petri_net [["a", "b", "a"], ["a"]]).2.2).1 =
      [some ((3 : ℚ) / 4), some 1] ∧
    (conformance_check [["a", "b", "a"], ["a"]]
        (discover_petri_net [["a", "b", "a"], ["a"]]).1
        (discover_petri_net [["a", "b", "a"], ["a"]]).2.1
        (discover_petri_net [["a", "b", "a"], ["a"]]).2.2).2 = (7 : ℚ) / 8 ∧
    ((3 : ℚ) / 4 ≠ 1 ∧ (7 : ℚ) / 8 ≠ 1) := by
  have hT : (discover_petri_net [["a", "b", "a"], ["a"]]).1 =
      [⟨none, [2], [1]⟩, ⟨some "a", [0], [2]⟩, ⟨some "b", [2], [2]⟩] := by decide
  have him : (discover_petri_net [["a", "b", "a"], ["a"]]).2.1 = [0] := rfl
  have hfm : (discover_petri_net [["a", "b", "a"], ["a"]]).2.2 = [1] := rfl
  have hw : searchCost [] [⟨none, [2], [1]⟩, ⟨some "a", [0], [2]⟩, ⟨some "b", [2], [2]⟩]
      [0] [1] = some 1 := by decide
  have hc1 : searchCost ["a", "b", "a"]
      [⟨none, [2], [1]⟩, ⟨some "a", [0], [2]⟩, ⟨some "b", [2], [2]⟩] [0] [1] = some 1 := by
    decide
  have hc2 : searchCost ["a"]
      [⟨none, [2], [1]⟩, ⟨some "a", [0], [2]⟩, ⟨some "b", [2], [2]⟩] [0] [1] = some 0 := by
    decide
  rw [hT, him, hfm]
  simp only [conformance_check, apply_log, List.map, alignTrace, hw, hc1, hc2]
  norm_num [List.filterMap]

/-! ## Claim C2: per-trace error isolation -/

/-- C2: if alignment of the `i`-th trace fails, `conformance_check` reports
that trace as a failure (`none`) in the result list and still returns, for
every other trace, exactly the result of aligning that trace alone; the
result list always has one entry per trace of the log. -/
theorem conformance_per_trace_isolation (log : Log) (T : List PNTrans)
    (im fm : Marking) (i : Nat) (t : Trace) (hit : log[i]? = some t)
    (hfail : alignTrace t T im fm = none) :
    ((conformance_check log T im fm).1.length = log.length ∧
      (conformance_check log T im fm).1[i]? = some none) ∧
    ∀ j tj, j ≠ i → log[j]? = some tj →
      (conformance_check log T im fm).1[j]? = some (alignTrace tj T im fm) := by
  refine ⟨⟨by simp [conformance_check, apply_log], ?_⟩, ?_⟩
  · simp [conformance_check, apply_log, List.getElem?_map, hit, hfail]
  · intro j tj _ hj
    simp [conformance_check, apply_log, List.getElem?_map, hj]

/-- Witness for C2: a net with no transitions makes the first trace fail,
and the second trace's result is still reported in the collected list. -/
theorem conformance_per_trace_isolation_witness :
    ((conformance_check [["a"], ["b"]] [] [0] [1]).1.length = 2 ∧
      (conformance_check [["a"], ["b"]] [] [0] [1]).1[0]? = some none) ∧
    (conformance_check [["a"], ["b"]] [] [0] [1]).1[1]? =
      some (alignTrace ["b"] [] [0] [1]) :=
  ⟨(conformance_per_trace_isolation [["a"], ["b"]] [] [0] [1] 0 ["a"] (by decide)
      (by decide)).1,
    (conformance_per_trace_isolation [["a"], ["b"]] [] [0] [1] 0 ["a"] (by decide)
      (by decide)).2 1 ["b"] (by decide) (by decide)⟩

/-- Witness for C9 at a concrete analysis and alignment list. -/
theorem generate_suggestions_nonempty_witness :
    generate_suggestions ⟨none, 5⟩ [1] 1 ≠ [] ∧
    Suggestion.noMajorDeviations ∉ generate_suggestions ⟨none, 5⟩ [1] 1 :=
  generate_suggestions_nonempty ⟨none, 5⟩ [1] 1

/-! ## Claim C10: synthetic generator invariant -/

/-- Every single generated case starts with Login, ends with Logout, and has
strictly increasing timestamps (every delay drawn is at least one minute). -/
theorem genCase_ok (g : Nat → Nat) (i : Nat) :
    ((genCase g i).1.map Prod.fst).head? = some "Login" ∧
    ((genCase g i).1.map Prod.fst).getLast? = some "Logout" ∧
    List.Chain' (· < ·) ((genCase g i).1.map Prod.snd) := by
  simp only [genCase, randint]
  split_ifs <;> simp <;> omega

/-- All cases of `genCases` satisfy the per-case invariant. -/
theorem genCases_ok (g : Nat → Nat) (n i : Nat) (c : List (String × Nat))
    (hc : c ∈ genCases g n i) :
    (c.map Prod.fst).head? = some "Login" ∧
    (c.map Prod.fst).getLast? = some "Logout" ∧
    List.Chain' (· < ·) (c.map Prod.snd) := by
  induction n generalizing i with
  | zero => simp [genCases] at hc
  | succ n ih =>
    simp only [genCases, List.mem_cons] at hc
    rcases hc with rfl | hc
    · exact genCase_ok g i
    · exact ih _ hc

/-- C10: for every number of cases at least 1, each case produced by
`generate_synthetic_log` has Login as its first event, Logout as its last
event, and strictly increasing timestamps within the case. -/
theorem generate_synthetic_log_invariant (g : Nat → Nat) (n : Nat)
    (hn : 1 ≤ n) (c : List (String × Nat)) (hc : c ∈ generate_synthetic_log g n) :
    (c.map Prod.fst).head? = some "Login" ∧
    (c.map Prod.fst).getLast? = some "Logout" ∧
    List.Chain' (· < ·) (c.map Prod.snd) :=
  genCases_ok g n 0 c hc

/-- Witness for C10 at one case drawn from the constant-zero stream. -/
theorem generate_synthetic_log_invariant_witness :
    ([("Login", 0), ("View_Content", 1), ("Attempt_Quiz", 2), ("Submit_Quiz", 4),
        ("Logout", 5)].map (Prod.fst (α := String) (β := Nat))).head? = some "Login" ∧
    ([("Login", 0), ("View_Content", 1), ("Attempt_Quiz", 2), ("Submit_Quiz", 4),
        ("Logout", 5)].map (Prod.fst (α := String) (β := Nat))).getLast? = some "Logout" ∧
    List.Chain' (· < ·)
      ([("Login", 0), ("View_Content", 1), ("Attempt_Quiz", 2), ("Submit_Quiz", 4),
        ("Logout", 5)].map (Prod.snd (α := String) (β := Nat))) :=
  generate_synthetic_log_invariant (fun _ => 0) 1 (by decide)
    [("Login", 0), ("View_Content", 1), ("Attempt_Quiz", 2), ("Submit_Quiz", 4),
      ("Logout", 5)] (by decide)

end EPM
